import Mathlib

/-!
# JobFinder core: a shallow embedding in Lean 4

This file embeds the core of the JobFinder repository — the FAISS-backed
job vector store (`Scraping/adzuna_vector_store.py`), the duplicate
suppression pass and the retrieval pipeline of the REST layer
(`Scraping/api.py`) — and proves or refutes the specified properties.

Modelling conventions, used throughout:

* Python strings are modelled as `List Char` (`Str`); `str.lower()` is
  `List.map Char.toLower` (ASCII case folding; the records in scope are
  plain text, so locale-sensitive Unicode folding is not modelled).
* Python float arithmetic on similarity scores is modelled exactly over
  unnormalised integer fractions (`Frac`); every denominator produced by
  the code paths in scope is positive, and comparisons are the rational
  ones.  Float rounding is not modelled; no comparison in scope sits at a
  representability boundary (see the comments at the `ratioGe95`).
* A Python dict holding a job record is modelled as the fixed-schema
  structure `Job`; a missing key and a `None` value are both `Option.none`.
* `datetime` values are integers counting hours, with 2000-01-01 ↦ 0
  (`datetime.datetime(2000, 1, 1)` is the sort default in the source).
* External nondeterminism (the sentence-transformer encoder, `random.*`,
  `strftime`/`strptime`, `init_vector_store.generate_sample_jobs`) is
  collected in an environment record `Env` of abstract functions; a
  failing call (`encode` raising) is `Option.none`.
-/

set_option maxRecDepth 40000

/-- Python strings, modelled as character lists. -/
abbrev Str := List Char

/-- Coerce a Lean string literal into the model's string type. -/
def str (s : String) : Str := s.data

/-- `s.lower()` (ASCII folding). -/
def lower (s : Str) : Str := s.map Char.toLower

/-- `needle` is a prefix of `hay` (helper for Python's `in` on strings). -/
def strPrefix : Str → Str → Bool
  | [], _ => true
  | _ :: _, [] => false
  | a :: as_, b :: bs => a = b && strPrefix as_ bs

/-- Python's substring test `needle in hay`. -/
def strIn (needle : Str) : Str → Bool
  | [] => needle.isEmpty
  | hay@(_ :: t) => strPrefix needle hay || strIn needle t

/-- Python's `str.split()` with no separator: splits on whitespace runs,
producing no empty fragments.  `splitWsAux cs acc` holds the current
fragment in `acc`, reversed. -/
def splitWsAux : List Char → List Char → List Str
  | [], acc => if acc.isEmpty then [] else [acc.reverse]
  | c :: rest, acc =>
    if c = ' ' || c = '\t' || c = '\n' || c = '\r' then
      if acc.isEmpty then splitWsAux rest [] else acc.reverse :: splitWsAux rest []
    else splitWsAux rest (c :: acc)

/-- `query.lower().split()`. -/
def splitWs (s : Str) : List Str := splitWsAux s []

/-! ## Exact fractions

`Frac` models CPython float values produced by the similarity-score
arithmetic.  Operations mirror exact rational arithmetic without
normalisation; all fractions produced by the embedded code have positive
denominators, and the boolean comparisons below agree with the rational
order in that case. -/

/-- An unnormalised fraction `num / den`. -/
structure Frac where
  num : Int
  den : Int
deriving DecidableEq, Repr

instance : Inhabited Frac := ⟨⟨0, 1⟩⟩

/-- Embed an integer. -/
def Frac.ofInt (n : Int) : Frac := ⟨n, 1⟩

/-- Fraction addition. -/
def Frac.add (a b : Frac) : Frac := ⟨a.num * b.den + b.num * a.den, a.den * b.den⟩

/-- Fraction subtraction. -/
def Frac.sub (a b : Frac) : Frac := ⟨a.num * b.den - b.num * a.den, a.den * b.den⟩

/-- Fraction multiplication. -/
def Frac.mul (a b : Frac) : Frac := ⟨a.num * b.num, a.den * b.den⟩

/-- Fraction division (denominators in scope are positive). -/
def Frac.div (a b : Frac) : Frac := ⟨a.num * b.den, a.den * b.num⟩

/-- `a < b` on fractions with positive denominators. -/
def Frac.blt (a b : Frac) : Bool := a.num * b.den < b.num * a.den

/-- `a ≤ b` on fractions with positive denominators. -/
def Frac.ble (a b : Frac) : Bool := a.num * b.den ≤ b.num * a.den

/-! ## `difflib.SequenceMatcher` (no junk)

`is_duplicate_job` compares titles and companies with
`SequenceMatcher(None, s1, s2).ratio()`.  For the short strings in scope
no character is auto-junked (autojunk needs `len(b) ≥ 200`), so
`find_longest_match` is exactly the quadratic longest-matching-run dynamic
program, and the (junk-driven) extension loops after it are no-ops: a
match extendable by an equal adjacent character pair would contradict the
maximality of the run found by the dynamic program.  `ratio()` is
`2·M / (len(a)+len(b))` where `M` sums the matched block sizes of the
recursive decomposition around longest matches. -/

/-- One row of the longest-run dynamic program: for row character `c`,
entry `j` is the length of the common run ending at `(i, j)`; `pshift` is
the previous row shifted right by one (so its head is `prev[j-1]`). -/
def smRow (c : Char) : List Char → List Nat → List Nat
  | [], _ => []
  | bj :: brest, pshift =>
    (if bj = c then pshift.headD 0 + 1 else 0) :: smRow c brest pshift.tail

/-- Fold a dp row into the current best `(besti, bestj, bestsize)`,
updating on strictly larger run sizes only (earliest `i`, then earliest
`j`, wins — as in CPython). -/
def rowBest (i : Nat) : Nat → List Nat → Nat × Nat × Nat → Nat × Nat × Nat
  | _, [], best => best
  | j, k :: rest, best =>
    rowBest i (j + 1) rest (if best.2.2 < k then (i + 1 - k, j + 1 - k, k) else best)

/-- Run the dynamic program over the rows of `a`. -/
def flmGo (b : List Char) : List Char → Nat → List Nat → Nat × Nat × Nat → Nat × Nat × Nat
  | [], _, _, best => best
  | c :: arest, i, prev, best =>
    let row := smRow c b (0 :: prev)
    flmGo b arest (i + 1) row (rowBest i 0 row best)

/-- `SequenceMatcher.find_longest_match` over whole strings (no junk). -/
def findLongestMatch (a b : List Char) : Nat × Nat × Nat :=
  flmGo b a 0 (List.replicate b.length 0) (0, 0, 0)

/-- Total matched size, by recursive decomposition around the longest
match, as in `get_matching_blocks`.  The fuel is structural; each
recursive call strictly shrinks `a`, so `a.length + 1` units suffice. -/
def smRec : Nat → List Char → List Char → Nat
  | 0, _, _ => 0
  | fuel + 1, a, b =>
    let m := findLongestMatch a b
    if m.2.2 = 0 then 0
    else
      smRec fuel (a.take m.1) (b.take m.2.1) + m.2.2 +
        smRec fuel (a.drop (m.1 + m.2.2)) (b.drop (m.2.1 + m.2.2))

/-- `M`: the sum of matching block sizes of `SequenceMatcher(None, a, b)`. -/
def matchTotal (a b : List Char) : Nat := smRec (a.length + 1) a b

/-- `ratio() >= 0.95`, cross-multiplied: `2M/T ≥ 19/20 ↔ 40M ≥ 19T`
(for `T = 0` CPython returns ratio `1.0`, and the inequality also holds).
The float literal `0.95` rounds to a double strictly below `19/20`; for
the string lengths in scope the nearest rational `2M/T` below `19/20` is
at distance ≥ `1/T` from it, far outside one ulp, so the float comparison
and the exact one agree. -/
def ratioGe95 (a b : List Char) : Bool :=
  19 * (a.length + b.length) ≤ 40 * matchTotal a b

/-- `ratio() == 1.0`, i.e. `2M = T` (`T = 0` gives ratio `1.0`). -/
def ratioEq1 (a b : List Char) : Bool :=
  2 * matchTotal a b = a.length + b.length

/-! ## The job record

Fixed schema covering every key the embedded code reads.  A missing key
and a Python `None` are both `none`; `dict.get(key, default)` is
`Option.getD`. -/

/-- A job record (one Python dict from the ingestion dataframe). -/
structure Job where
  title : Option Str := none
  company : Option Str := none
  location : Option Str := none
  description : Option Str := none
  redirect_url : Option Str := none
  job_type : Option Str := none
  contract_type : Option Str := none
  category : Option Str := none
  specialty : Option Str := none
  created : Option Str := none
  id : Option Str := none
  salary : Option Str := none
  salary_min : Option Frac := none
  salary_max : Option Frac := none
  skills : List Str := []
  remote_friendly : Bool := false
  international : Bool := false
deriving DecidableEq, Repr

instance : Inhabited Job := ⟨{}⟩

/-- Python truthiness of an optional string (`None` and `''` are falsy). -/
def truthy (o : Option Str) : Bool := !(o.getD []).isEmpty

/-- `api.is_duplicate_job(job1, job2)` with the default thresholds
(`title_threshold = company_threshold = 0.95`).  Note the source returns
`False` when any title or company is missing/empty *before* it consults
the redirect URLs. -/
def is_duplicate_job (j1 j2 : Job) : Bool :=
  let t1 := lower (j1.title.getD [])
  let t2 := lower (j2.title.getD [])
  let c1 := lower (j1.company.getD [])
  let c2 := lower (j2.company.getD [])
  if t1.isEmpty || t2.isEmpty || c1.isEmpty || c2.isEmpty then false
  else
    let u1 := lower (j1.redirect_url.getD [])
    let u2 := lower (j2.redirect_url.getD [])
    if !u1.isEmpty && !u2.isEmpty && u1 = u2 then true
    else
      let l1 := lower (j1.location.getD [])
      let l2 := lower (j2.location.getD [])
      let sameLocation := l1 = l2 && !l1.isEmpty
      (ratioGe95 t1 t2 && ratioGe95 c1 c2) || (ratioEq1 t1 t2 && sameLocation)

/-! ## `api.remove_duplicate_jobs`

Generic over the element type, because the retrieval pipeline applies it
to enriched working copies: `dup` is the duplicate test and membership
(`potential_job not in unique_jobs`) is structural equality, as for
Python dicts. -/

/-- The re-admission pass: walk the full input in order, appending
records not already kept, stopping once `min_results` is reached. -/
def readmitLoop {α : Type} [DecidableEq α] (minR : Nat) : List α → List α → List α
  | [], u => u
  | p :: rest, u =>
    if p ∈ u then readmitLoop minR rest u
    else
      let u2 := u ++ [p]
      if minR ≤ u2.length then u2 else readmitLoop minR rest u2

/-- One iteration of the main scan: keep `j` unless it duplicates a kept
record, then, if fewer than `min_results` are kept and
`len(jobs) - len(unique_jobs) > len(jobs) * 0.7` (records not yet
accepted — processed or not — count as removed), run re-admission.
The float comparison is modelled by the exact `10·(n−u) > 7·n`; `0.7`
rounds below `7/10` by less than one ulp and `n·0.7` re-rounds to the
exact product for every feasible list length, so the comparisons agree. -/
def dedupStep {α : Type} [DecidableEq α] (dup : α → α → Bool) (all : List α)
    (minR : Nat) (u : List α) (j : α) : List α :=
  let u1 := if u.any (fun e => dup j e) then u else u ++ [j]
  if u1.length < minR && 10 * (all.length - u1.length) > 7 * all.length then
    readmitLoop minR all u1
  else u1

/-- The main scan of `remove_duplicate_jobs`. -/
def dedupLoop {α : Type} [DecidableEq α] (dup : α → α → Bool) (all : List α)
    (minR : Nat) : List α → List α → List α
  | [], u => u
  | j :: rest, u => dedupLoop dup all minR rest (dedupStep dup all minR u j)

/-- `api.remove_duplicate_jobs(jobs, min_results)`, generic in the
record type. -/
def removeDuplicates {α : Type} [DecidableEq α] (dup : α → α → Bool)
    (jobs : List α) (minR : Nat) : List α :=
  if jobs.isEmpty then []
  else if jobs.length ≤ minR then jobs
  else dedupLoop dup jobs minR jobs []

/-- `api.remove_duplicate_jobs` on plain job records. -/
def remove_duplicate_jobs (jobs : List Job) (minR : Nat) : List Job :=
  removeDuplicates is_duplicate_job jobs minR

/-! ## Stable sorts

CPython's `list.sort(key=..., reverse=True)` is a stable sort comparing
keys with `<`; any two stable sorts by the same key coincide as
functions, so it is modelled by a stable insertion sort.  `sortDescBy`
places each element after all earlier elements with a `≥` key (stable,
descending); `sortAscBy` is the ascending counterpart used for the exact
FAISS scan. -/

/-- Stable descending insertion: `x` goes before the first strictly
smaller key. -/
def insertDescBy {α β : Type} (ltb : β → β → Bool) (key : α → β) (x : α) :
    List α → List α
  | [] => [x]
  | y :: ys => if ltb (key y) (key x) then x :: y :: ys else y :: insertDescBy ltb key x ys

/-- Stable descending sort by key. -/
def sortDescBy {α β : Type} (ltb : β → β → Bool) (key : α → β) (l : List α) : List α :=
  l.foldl (fun acc x => insertDescBy ltb key x acc) []

/-- Stable ascending insertion: `x` goes before the first strictly
larger key. -/
def insertAscBy {α β : Type} (ltb : β → β → Bool) (key : α → β) (x : α) :
    List α → List α
  | [] => [x]
  | y :: ys => if ltb (key x) (key y) then x :: y :: ys else y :: insertAscBy ltb key x ys

/-- Stable ascending sort by key. -/
def sortAscBy {α β : Type} (ltb : β → β → Bool) (key : α → β) (l : List α) : List α :=
  l.foldl (fun acc x => insertAscBy ltb key x acc) []

/-! ## The vector store (`adzuna_vector_store.JobVectorStore`) -/

/-- The in-memory state: `self.jobs`, the FAISS `IndexFlatL2` contents,
and `self.job_ids_map`.  The dict is an association list; insertion
prepends (so `List.lookup` sees the newest binding, as a dict lookup
does). -/
structure Store where
  jobs : List Job := []
  index : List (List Frac) := []
  map : List (Nat × Nat) := []
deriving DecidableEq, Repr

/-- The external world: the sentence-transformer encoder (`none` models a
raised exception), `random.sample`, `init_vector_store.generate_sample_jobs`,
the clock, `strftime`/`strptime`, and the `random.randint` streams drawn
by the retrieval pipeline (indexed by draw position). -/
structure Env where
  embed : Str → Option (List Frac)
  sample : List Job → Nat → List Job
  genSample : Nat → List Job
  now : Int
  fmtDate : Int → Str
  parseDate : Str → Option Int
  jitter3 : Nat → Nat
  rand30 : Nat → Nat
  rand10 : Nat → Nat

/-- `_create_job_vector`'s text: the canonical text of a record. -/
def canonicalText (j : Job) : Str :=
  str "Title: " ++ j.title.getD [] ++ str " Company: " ++ j.company.getD [] ++
    str " Location: " ++ j.location.getD [] ++ str " Description: " ++ j.description.getD []

/-- The ingestion loop of `add_jobs_from_dataframe`: walk the batch,
skipping records whose embedding raises; a success appends the vector and
the record and binds `job_ids_map[current + added] = current + added`. -/
def addLoop (env : Env) (current : Nat) :
    List Job → Nat → List (List Frac) → List Job → List (Nat × Nat) →
      Nat × List (List Frac) × List Job × List (Nat × Nat)
  | [], added, vecs, valid, m => (added, vecs, valid, m)
  | j :: rest, added, vecs, valid, m =>
    match env.embed (canonicalText j) with
    | none => addLoop env current rest added vecs valid m
    | some v =>
      addLoop env current rest (added + 1) (vecs ++ [v]) (valid ++ [j])
        ((current + added, current + added) :: m)

/-- `add_jobs_from_dataframe(jobs_df)`: returns the updated store and the
count of records added. -/
def addBatch (env : Env) (st : Store) (batch : List Job) : Store × Nat :=
  let r := addLoop env st.jobs.length batch 0 [] [] st.map
  ({ jobs := st.jobs ++ r.2.2.1, index := st.index ++ r.2.1, map := r.2.2.2 }, r.1)

/-- A working copy in a result list: the record plus the keys the search
and pipeline code add to the copy (`similarity_score`, `_parsed_date`,
`inferred_type`). -/
structure PJob where
  job : Job
  score : Option Frac := none
  parsedDate : Option Int := none
  inferredType : Bool := false
deriving DecidableEq, Repr

/-- Squared L2 distance, as `IndexFlatL2` reports it. -/
def l2sq (q v : List Frac) : Frac :=
  ((q.zip v).map fun p => Frac.mul (Frac.sub p.1 p.2) (Frac.sub p.1 p.2)).foldl
    Frac.add (Frac.ofInt 0)

/-- The exact FAISS scan: every stored vector is scored, results are the
`topk` nearest by squared L2 distance (ascending; ties by insertion
order), each paired with its index position.  FAISS's `-1` padding when
`topk` exceeds the index size is modelled by returning fewer entries (the
caller's guard skips padding entries). -/
def faissSearch (index : List (List Frac)) (q : List Frac) (topk : Nat) :
    List (Frac × Nat) :=
  (sortAscBy Frac.blt Prod.fst (index.enum.map fun p => (l2sq q p.2, p.1))).take topk

/-- The candidate scan of `search_similar_jobs`: walk the FAISS results,
skip out-of-range ids and missing map entries, score each surviving copy
with `1 / (1 + distance)`, drop candidates failing the predicate, and
stop as soon as `k` results are kept. -/
def scanLoop (k : Nat) (jobs : List Job) (m : List (Nat × Nat))
    (pred : Option (Job → Bool)) : List (Frac × Nat) → List PJob → List PJob
  | [], acc => acc
  | (dist, idx) :: rest, acc =>
    if jobs.length ≤ idx then scanLoop k jobs m pred rest acc
    else
      match List.lookup idx m with
      | none => scanLoop k jobs m pred rest acc
      | some jid =>
        if jobs.length ≤ jid then scanLoop k jobs m pred rest acc
        else
          let job := jobs.getD jid {}
          let pj : PJob :=
            { job := job, score := some (Frac.div (Frac.ofInt 1) (Frac.add (Frac.ofInt 1) dist)) }
          if (match pred with | some f => !f job | none => false) then
            scanLoop k jobs m pred rest acc
          else
            let acc2 := acc ++ [pj]
            if k ≤ acc2.length then acc2 else scanLoop k jobs m pred rest acc2

/-- The keyword-scored candidates of `_fallback_search`: every record
passing the predicate whose title+company+description text contains a
query term (or every passing record when the query has no terms), scored
`matches / max(1, len(terms))`. -/
def fallbackScored (jobs : List Job) (terms : List Str)
    (pred : Option (Job → Bool)) : List PJob :=
  jobs.filterMap fun job =>
    if (match pred with | some f => !f job | none => false) then none
    else
      let text :=
        lower (job.title.getD [] ++ str " " ++ job.company.getD [] ++ str " " ++
          job.description.getD [])
      let m := (terms.filter fun t => strIn t text).length
      if 0 < m || terms.isEmpty then
        some { job := job,
               score := some (Frac.div (Frac.ofInt m) (Frac.ofInt (max 1 terms.length))) : PJob }
      else none

/-- `_fallback_search(query, k, filter_fn)`: keyword scoring over the
whole store, then — only when nothing scored — `min(k, n)` records drawn
by `random.sample` from the *unfiltered* store with fixed score `0.1`. -/
def fallbackSearch (env : Env) (st : Store) (query : Str) (k : Nat)
    (pred : Option (Job → Bool)) : List PJob :=
  let terms := splitWs (lower query)
  let sorted := sortDescBy Frac.blt (fun pj : PJob => pj.score.getD default)
    (fallbackScored st.jobs terms pred)
  let final :=
    if sorted.isEmpty then
      sorted ++ (env.sample st.jobs (min k st.jobs.length)).map fun j =>
        ({ job := j, score := some ⟨1, 10⟩ } : PJob)
    else sorted
  final.take k

/-- `search_similar_jobs(query, k, filter_fn)`.  An empty store returns
`[]`; a raised query embedding, or an empty scan, falls back to the
keyword scorer.  With a predicate the FAISS request is widened to
`min(5k, n)` candidates. -/
def searchSimilar (env : Env) (st : Store) (query : Str) (k : Nat)
    (pred : Option (Job → Bool)) : List PJob :=
  if st.jobs.isEmpty then []
  else
    match env.embed query with
    | none => fallbackSearch env st query k pred
    | some qv =>
      let topk := match pred with | none => k | some _ => min (k * 5) st.jobs.length
      let results := scanLoop k st.jobs st.map pred (faissSearch st.index qv topk) []
      if results.isEmpty then fallbackSearch env st query k pred else results

/-- The `search_remote_jobs` predicate. -/
def remoteFilter (j : Job) : Bool :=
  j.remote_friendly || strIn (str "remote") (lower (j.location.getD []))

/-- The `search_morocco_relevant` predicate. -/
def moroccoFilter (j : Job) : Bool :=
  let text :=
    lower (j.title.getD [] ++ str " " ++ j.location.getD [] ++ str " " ++ j.description.getD [])
  let isRemote := j.remote_friendly || strIn (str "remote") text
  let mentions :=
    [str "morocco", str "maroc", str "rabat", str "casablanca", str "tanger", str "fes"].any
      fun t => strIn t text
  isRemote || j.international || mentions

/-- `search_remote_jobs(query, k)`. -/
def searchRemote (env : Env) (st : Store) (query : Str) (k : Nat) : List PJob :=
  searchSimilar env st query k (some remoteFilter)

/-- `search_morocco_relevant(query, k)`. -/
def searchMorocco (env : Env) (st : Store) (query : Str) (k : Nat) : List PJob :=
  searchSimilar env st query k (some moroccoFilter)

/-! ## Persistence (`save` / `load`) -/

/-- The file system seen by `save`/`load` under the store's `vector_dir`:
for each base name, the outer `Option` is `os.path.exists`, the inner one
is whether reading/unpickling the artifact succeeds. -/
structure FS where
  indexFile : Str → Option (Option (List (List Frac)))
  dataFile : Str → Option (Option (List Job × List (Nat × Nat)))

/-- `save(base_filename)`: write both artifacts.  Write faults (the
`except` branch returning `False`) are environmental and not modelled. -/
def saveStore (st : Store) (name : Str) (fs : FS) : Bool × FS :=
  (true,
    { indexFile := fun n => if n = name then some (some st.index) else fs.indexFile n,
      dataFile := fun n => if n = name then some (some (st.jobs, st.map)) else fs.dataFile n })

/-- `load(base_filename)`: both artifacts must exist, else `False` with
the state untouched.  Then `self.index = faiss.read_index(...)` runs
*before* the pickle is read: a failing index read leaves the state
untouched, but a failing pickle read returns `False` with `self.index`
already replaced. -/
def loadStore (fs : FS) (name : Str) (st : Store) : Bool × Store :=
  match fs.indexFile name, fs.dataFile name with
  | none, _ => (false, st)
  | some _, none => (false, st)
  | some ixRead, some dataRead =>
    match ixRead with
    | none => (false, st)
    | some ix =>
      let st1 := { st with index := ix }
      match dataRead with
      | none => (false, st1)
      | some d => (true, { st1 with jobs := d.1, map := d.2 })

/-! ## The reachability and alignment predicates (§3, §8) -/

/-- The alignment invariant: the index and the record list have equal
length and, at every index position `i`, `position_map[i] = i` and the
stored vector is the embedding of the canonical text of the record at
that position. -/
def Aligned (env : Env) (st : Store) : Prop :=
  st.index.length = st.jobs.length ∧
    ∀ i, i < st.index.length →
      List.lookup i st.map = some i ∧
        (st.jobs[i]?.bind fun j => env.embed (canonicalText j)) = st.index[i]?

/-- Stores reachable from a fresh `JobVectorStore` by a sequence of
`add_jobs_from_dataframe` calls. -/
inductive Reachable (env : Env) : Store → Prop
  | init : Reachable env {}
  | step (st : Store) (batch : List Job) :
      Reachable env st → Reachable env (addBatch env st batch).1

/-! ## The retrieval pipeline (`api.search_jobs`)

One request's query parameters.  `remove_duplicates` and `sort_by_date`
default to true in the source; `minSalary`/`recentHours` are `None` when
absent. -/

/-- Query parameters of `/api/jobs/search`. -/
structure Request where
  query : Str
  location : Str := []
  jobType : Str := []
  minSalary : Option Int := none
  remote : Bool := false
  moroccoOnly : Bool := false
  limit : Nat := 20
  engineeringField : Str := []
  removeDuplicates : Bool := true
  sortByDate : Bool := true
  recentHours : Option Int := none

/-- `datetime.datetime(2000, 1, 1)` on the model's timeline. -/
def py2000 : Int := 0

/-- `datetime.datetime(1970, 1, 1)`: 10957 days before 2000-01-01. -/
def py1970 : Int := -262968

/-- Contract-type inference from the description (the source computes a
lowercased title too but its conditions read only the description);
defaults to `CDI`. -/
def inferJobType (j : Job) : Str :=
  let desc := lower (j.description.getD [])
  if strIn (str "cdi") desc || strIn (str "permanent") desc ||
      strIn (str "indeterminé") desc then str "CDI"
  else if strIn (str "cdd") desc || strIn (str "contract") desc ||
      strIn (str "déterminé") desc then str "CDD"
  else if strIn (str "stage") desc || strIn (str "internship") desc ||
      strIn (str "stagiaire") desc then str "Stage"
  else if strIn (str "freelance") desc || strIn (str "independent") desc ||
      strIn (str "indépendant") desc then str "Freelance"
  else if strIn (str "temps partiel") desc || strIn (str "part time") desc ||
      strIn (str "part-time") desc then str "Part-time"
  else str "CDI"

/-- Fill a falsy `job_type` on the working copy. -/
def enrichJobType (pj : PJob) : PJob :=
  if truthy pj.job.job_type then pj
  else { pj with job := { pj.job with job_type := some (inferJobType pj.job) } }

/-- First dating pass: the `i`-th candidate without a truthy `created`
(in list order) is dated `min(i, 59) + randint(0, 3)` days ago, and both
`created` and `_parsed_date` are set on the copy. -/
def assignSynthDates (env : Env) : List PJob → Nat → List PJob
  | [], _ => []
  | p :: rest, i =>
    if truthy p.job.created then p :: assignSynthDates env rest i
    else
      let d := env.now - 24 * (Int.ofNat (min i 59) + Int.ofNat (env.jitter3 i))
      { p with job := { p.job with created := some (env.fmtDate d) }, parsedDate := some d } ::
        assignSynthDates env rest (i + 1)

/-- Second dating pass: parse `created` for candidates still lacking
`_parsed_date` (the three accepted `strptime` formats are the abstract
`env.parseDate`); an unparseable or falsy date becomes
`now − randint(0, 30)` days. -/
def parseDatesPass (env : Env) : List PJob → Nat → List PJob
  | [], _ => []
  | p :: rest, i =>
    let p2 :=
      if p.parsedDate.isSome then p
      else if truthy p.job.created then
        match env.parseDate (p.job.created.getD []) with
        | some t => { p with parsedDate := some t }
        | none => { p with parsedDate := some (env.now - 24 * Int.ofNat (env.rand30 i)) }
      else { p with parsedDate := some (env.now - 24 * Int.ofNat (env.rand30 i)) }
    p2 :: parseDatesPass env rest (i + 1)

/-- `results.sort(key=lambda x: x.get('_parsed_date', datetime(2000,1,1)), reverse=True)`. -/
def sortByDateDesc (l : List PJob) : List PJob :=
  sortDescBy (fun a b : Int => decide (a < b)) (fun pj => pj.parsedDate.getD py2000) l

/-- The dating pass of the recency-window refetch: like
`parseDatesPass`, except that when no format matches, `_parsed_date`
stays unset (the source's inner loop has no default on that path), and a
falsy date becomes `now − randint(0, 10)` days. -/
def refetchParse (env : Env) : List PJob → Nat → List PJob
  | [], _ => []
  | p :: rest, i =>
    let p2 :=
      if p.parsedDate.isSome then p
      else if truthy p.job.created then
        match env.parseDate (p.job.created.getD []) with
        | some t => { p with parsedDate := some t }
        | none => p
      else { p with parsedDate := some (env.now - 24 * Int.ofNat (env.rand10 i)) }
    p2 :: refetchParse env rest (i + 1)

/-- The truthy ids of the kept results (`existing_ids`). -/
def existingIds (l : List PJob) : List Str :=
  l.filterMap fun p => if truthy p.job.id then some (p.job.id.getD []) else none

/-- Append refetched candidates with fresh truthy ids until `limit`
results are held. -/
def appendById (limit : Nat) : List PJob → List PJob → List Str → List PJob
  | [], acc, _ => acc
  | p :: rest, acc, ids =>
    if limit ≤ acc.length then acc
    else if truthy p.job.id && !ids.contains (p.job.id.getD []) then
      appendById limit rest (acc ++ [p]) (ids ++ [p.job.id.getD []])
    else appendById limit rest acc ids

/-- After dedup, append refetched candidates that duplicate no kept
result, up to `2 × limit` total. -/
def appendNonDup (cap : Nat) : List PJob → List PJob → List PJob
  | [], acc => acc
  | p :: rest, acc =>
    if cap ≤ acc.length then acc
    else if acc.any fun e => is_duplicate_job p.job e.job then appendNonDup cap rest acc
    else appendNonDup cap rest (acc ++ [p])

/-- A row of the JSON response. -/
structure FormattedJob where
  id : Str
  title : Str
  company : Str
  location : Str
  description : Str
  salary : Str
  salaryMin : Frac
  salaryMax : Frac
  jobType : Str
  remote : Bool
  url : Str
  postedAt : Str
  skills : List Str
  category : Str
  similarityScore : Frac
  inferredType : Bool
  isRecent : Bool
deriving DecidableEq, Repr

/-- Decimal rendering for the positional id default `job-{n}`. -/
def natToStr (n : Nat) : Str := Nat.toDigits 10 n

/-- The response row for the candidate at output position `pos`.  The
NaN/Inf salary scrubbing of the source cannot fire over exact fractions
and is omitted. -/
def formatJob (env : Env) (pos : Nat) (pj : PJob) : FormattedJob :=
  let j := pj.job
  let postedAt0 := j.created.getD []
  let postedAt :=
    if postedAt0.isEmpty && pj.parsedDate.isSome then env.fmtDate (pj.parsedDate.getD 0)
    else postedAt0
  { id := j.id.getD (str "job-" ++ natToStr pos),
    title := j.title.getD (str "Unknown Title"),
    company := j.company.getD (str "Unknown Company"),
    location := j.location.getD (str "Unknown Location"),
    description := j.description.getD [],
    salary := j.salary.getD [],
    salaryMin := j.salary_min.getD (Frac.ofInt 0),
    salaryMax := j.salary_max.getD (Frac.ofInt 0),
    jobType := match j.job_type with | some s => s | none => j.contract_type.getD [],
    remote := j.remote_friendly,
    url := j.redirect_url.getD [],
    postedAt := postedAt,
    skills := j.skills,
    category := match j.specialty with | some s => s | none => j.category.getD [],
    similarityScore := pj.score.getD (Frac.ofInt 0),
    inferredType := pj.inferredType,
    isRecent := decide (env.now - 6 ≤ pj.parsedDate.getD py1970) }

/-- `api.search_jobs`, the whole `/api/jobs/search` handler body.  The
search stage is total in the model, so the `except` fallback around it
(serving `jobs[:5*limit]` raw) is reachable only through the
empty-result branch, which serves the same records. -/
def search_jobs (env : Env) (st : Store) (r : Request) : List FormattedJob :=
  let results0 : List PJob :=
    if r.moroccoOnly && r.remote then
      (searchMorocco env st r.query (r.limit * 5)).filter fun pj => pj.job.remote_friendly
    else if r.moroccoOnly then searchMorocco env st r.query (r.limit * 5)
    else if r.remote then searchRemote env st r.query (r.limit * 5)
    else searchSimilar env st r.query (r.limit * 5) none
  let results1 :=
    if results0.isEmpty then (st.jobs.take (r.limit * 5)).map fun j => ({ job := j } : PJob)
    else results0
  let results2 := results1.map enrichJobType
  let results3 :=
    if r.location.isEmpty then results2
    else results2.filter fun pj => strIn (lower r.location) (lower (pj.job.location.getD []))
  let results4 :=
    if r.jobType.isEmpty then results3
    else results3.filter fun pj => strIn (lower r.jobType) (lower (pj.job.job_type.getD []))
  let results5 :=
    match r.minSalary with
    | some s =>
      if 0 < s then
        -- the records carry no `salaryMin` key, so the second disjunct of the
        -- source reads its default `0`
        results4.filter fun pj =>
          Frac.ble (Frac.ofInt s) (pj.job.salary_min.getD (Frac.ofInt 0)) ||
            Frac.ble (Frac.ofInt s) (Frac.ofInt 0)
      else results4
    | none => results4
  let results6 :=
    if r.engineeringField.isEmpty then results5
    else
      results5.filter fun pj =>
        strIn (lower r.engineeringField) (lower (pj.job.category.getD [])) ||
          strIn (lower r.engineeringField) (lower (pj.job.title.getD []))
  let results7 :=
    if results6.isEmpty && !r.jobType.isEmpty then
      let res2 :=
        if r.moroccoOnly then searchMorocco env st r.query r.limit
        else searchSimilar env st r.query r.limit none
      res2.map fun pj =>
        { pj with job := { pj.job with job_type := some r.jobType }, inferredType := true }
    else results6
  let results8 :=
    if r.sortByDate then sortByDateDesc (parseDatesPass env (assignSynthDates env results7 0) 0)
    else results7
  let results9 :=
    match r.recentHours with
    | some h =>
      if 0 < h then
        let cutoff := env.now - h
        let originalCount := results8.length
        let kept := results8.filter fun pj => decide (cutoff ≤ pj.parsedDate.getD py1970)
        if kept.length < min r.limit 5 && 0 < originalCount - kept.length then
          let allRes := searchSimilar env st r.query (r.limit * 10) none
          appendById r.limit (sortByDateDesc (refetchParse env allRes 0)) kept (existingIds kept)
        else kept
      else results8
    | none => results8
  let results10 :=
    if r.removeDuplicates then
      let dd := removeDuplicates (fun a b : PJob => is_duplicate_job a.job b.job) results9 r.limit
      let dd2 :=
        if dd.length < r.limit && r.limit ≤ results9.length then
          let more :=
            if r.moroccoOnly then searchMorocco env st r.query (r.limit * 2)
            else searchSimilar env st r.query (r.limit * 2) none
          appendNonDup (r.limit * 2) more dd
        else dd
      if dd2.length = 0 then (env.genSample r.limit).map fun j => ({ job := j } : PJob)
      else dd2
    else results9
  (results10.take r.limit).enum.map fun p => formatJob env p.1 p.2

/-! ## Well-formedness of the environment

Every float has a positive denominator; an embedding function modelling
the encoder therefore only returns fractions with positive denominators. -/

/-- All components of a vector are fractions with positive denominator. -/
def WfVec (v : List Frac) : Prop := ∀ x ∈ v, 0 < x.den

/-- The encoder only produces well-formed vectors. -/
def WfEmbed (env : Env) : Prop := ∀ s v, env.embed s = some v → WfVec v

/-- One candidate step of the `search_similar_jobs` scan: `none` when the
candidate is skipped (invalid id, missing map entry, failed predicate),
otherwise the scored working copy. -/
def scanAccept (jobs : List Job) (m : List (Nat × Nat)) (pred : Option (Job → Bool))
    (c : Frac × Nat) : Option PJob :=
  if jobs.length ≤ c.2 then none
  else
    match List.lookup c.2 m with
    | none => none
    | some jid =>
      if jobs.length ≤ jid then none
      else
        let job := jobs.getD jid {}
        if (match pred with | some f => !f job | none => false) then none
        else
          some { job := job, score := some (Frac.div (Frac.ofInt 1) (Frac.add (Frac.ofInt 1) c.1)) }

/-- The successfully embedded records of a batch, paired with their
vectors (used to characterise the ingestion loop). -/
def embedded (env : Env) (batch : List Job) : List (Job × List Frac) :=
  batch.filterMap fun j => (env.embed (canonicalText j)).map fun v => (j, v)

/-- The dict bindings prepended by an ingestion of `n` records starting
at position `start` (newest first, as `addLoop` prepends). -/
def mkKeys (start n : Nat) : List (Nat × Nat) :=
  (List.range n).reverse.map fun t => (start + t, start + t)

/-- The later copy agrees with the earlier one on the four fields
`is_duplicate_job` reads (titles, companies, locations, redirect URLs);
the pipeline's enrichment passes only touch other fields. -/
def SameKey (a b : PJob) : Prop :=
  b.job.title = a.job.title ∧ b.job.company = a.job.company ∧
    b.job.location = a.job.location ∧ b.job.redirect_url = a.job.redirect_url

/-- A candidate list whose records each duplicate themselves and
pairwise duplicate no other record (in either order). -/
def GoodList (L : List PJob) : Prop :=
  (∀ pj ∈ L, is_duplicate_job pj.job pj.job = true) ∧
    List.Pairwise (fun a b : PJob =>
      is_duplicate_job a.job b.job = false ∧ is_duplicate_job b.job a.job = false) L

/-! ## Concrete instances used by the counterexamples and witnesses -/

/-- A record with a real title and company (so it duplicates itself). -/
def dupJob : Job :=
  { title := some (str "x"), company := some (str "c"),
    created := some (str "2024-01-05"), id := some (str "j1") }

/-- Three copies of the same record — all mutual duplicates. -/
def jobsC3 : List Job := [dupJob, dupJob, dupJob]

/-- Environment for the pipeline counterexample: the query embedding
raises (so search takes the keyword path), record texts embed, dates
parse to a fixed timestamp, and all random draws are zero. -/
def envC4 : Env :=
  { embed := fun s => if s = str "x" then none else some [Frac.ofInt 1],
    sample := fun l n => l.take n,
    genSample := fun _ => [],
    now := 200,
    fmtDate := fun _ => str "d",
    parseDate := fun s => if s = str "2024-01-05" then some 100 else none,
    jitter3 := fun _ => 0, rand30 := fun _ => 0, rand10 := fun _ => 0 }

/-- A store ingested from a batch of seven copies of the same record. -/
def stC4 : Store := (addBatch envC4 {} (List.replicate 7 dupJob)).1

/-- A trivial-filter request with `limit = 2`. -/
def reqC4 : Request := { query := str "x", limit := 2 }

/-- Predicate matching records located at `M`. -/
def predLocM : Job → Bool := fun j => decide (j.location = some (str "M"))

/-- Eleven records with strictly increasing canonical-text lengths;
positions 4 and 10 are located at `M`, the rest at `O`. -/
def jobsC6 : List Job :=
  (List.range 11).map fun i =>
    { title := some (List.replicate (i + 1) 'a'), company := some (str "c"),
      location := some (if i = 4 ∨ i = 10 then str "M" else str "O") }

/-- Environment whose encoder embeds a text to its length, making the
distance ranking of `jobsC6` equal to its position order. -/
def envC6 : Env :=
  { embed := fun s => some [Frac.ofInt (Int.ofNat s.length)],
    sample := fun l n => l.take n, genSample := fun _ => [],
    now := 0, fmtDate := fun _ => [], parseDate := fun _ => none,
    jitter3 := fun _ => 0, rand30 := fun _ => 0, rand10 := fun _ => 0 }

/-- The store ingested from `jobsC6`. -/
def stC6 : Store := (addBatch envC6 {} jobsC6).1

/-- Predicate matching records located at `Z` (satisfied by no record of
`jobsC10`). -/
def predLocZ : Job → Bool := fun j => decide (j.location = some (str "Z"))

/-- Two records, neither located at `Z`. -/
def jobsC10 : List Job :=
  [{ title := some (str "a"), location := some (str "A") },
   { title := some (str "b"), location := some (str "B") }]

/-- Environment for the last-resort-sample claims, parametrised by the
`random.sample` implementation; the encoder is constant so the vector
scan runs and filters everything out. -/
def envC10 (smp : List Job → Nat → List Job) : Env :=
  { embed := fun _ => some [Frac.ofInt 0],
    sample := smp, genSample := fun _ => [],
    now := 0, fmtDate := fun _ => [], parseDate := fun _ => none,
    jitter3 := fun _ => 0, rand30 := fun _ => 0, rand10 := fun _ => 0 }

/-- The store ingested from `jobsC10`. -/
def stC10 (smp : List Job → Nat → List Job) : Store :=
  (addBatch (envC10 smp) {} jobsC10).1

/-- Snapshot base name. -/
def nameC2 : Str := str "job_vector_store"

/-- A file system where both artifacts exist, the index artifact reads
back a one-vector index, and the data artifact is unreadable (corrupt
pickle). -/
def fsC2 : FS :=
  { indexFile := fun _ => some (some [[Frac.ofInt 2]]),
    dataFile := fun _ => some none }

/-- A record with an URL and company but no title. -/
def urlJob1 : Job := { redirect_url := some (str "http://u"), company := some (str "acme") }

/-- A record with the same URL, a company and a title. -/
def urlJob2 : Job :=
  { redirect_url := some (str "http://u"), company := some (str "acme"),
    title := some (str "t") }

/-! # Theorems

## Fraction order facts -/

theorem Frac.blt_asymm {a b : Frac} (h : Frac.blt a b = true) : Frac.blt b a = false := by
  simp only [Frac.blt, decide_eq_true_eq, decide_eq_false_iff_not] at *
  exact lt_asymm h

theorem Frac.ble_of_blt_false {a b : Frac} (h : Frac.blt a b = false) :
    Frac.ble b a = true := by
  simp only [Frac.blt, Frac.ble, decide_eq_false_iff_not, decide_eq_true_eq] at *
  exact not_lt.mp h

theorem Frac.blt_false_of_blt_left {x y w : Frac} (hx : 0 < x.den) (hy : 0 < y.den)
    (hw : 0 < w.den) (h1 : Frac.blt x y = true) (h2 : Frac.blt w y = false) :
    Frac.blt w x = false := by
  simp only [Frac.blt, decide_eq_true_eq, decide_eq_false_iff_not] at *
  intro hcon
  nlinarith [mul_lt_mul_of_pos_right h1 hw, mul_lt_mul_of_pos_left hcon hy,
    mul_le_mul_of_nonneg_right (not_lt.mp h2) (le_of_lt hx)]

theorem Frac.blt_false_of_blt_right {x y w : Frac} (hx : 0 < x.den) (hy : 0 < y.den)
    (hw : 0 < w.den) (h1 : Frac.blt y x = true) (h2 : Frac.blt y w = false) :
    Frac.blt x w = false := by
  simp only [Frac.blt, decide_eq_true_eq, decide_eq_false_iff_not] at *
  intro hcon
  nlinarith [mul_lt_mul_of_pos_right h1 hw, mul_lt_mul_of_pos_left hcon hy,
    mul_le_mul_of_nonneg_right (not_lt.mp h2) (le_of_lt hx)]

/-! ## Stable insertion sort lemmas -/

theorem mem_insertAscBy {α β : Type} (ltb : β → β → Bool) (key : α → β) (x a : α) :
    ∀ l : List α, (a ∈ insertAscBy ltb key x l ↔ a = x ∨ a ∈ l)
  | [] => by simp [insertAscBy]
  | y :: ys => by
    simp only [insertAscBy]
    by_cases h : ltb (key x) (key y) = true
    · rw [if_pos h]
      simp only [List.mem_cons]
    · rw [if_neg h]
      simp only [List.mem_cons, mem_insertAscBy ltb key x a ys]
      tauto

theorem perm_insertAscBy {α β : Type} (ltb : β → β → Bool) (key : α → β) (x : α) :
    ∀ l : List α, List.Perm (insertAscBy ltb key x l) (x :: l)
  | [] => by simp [insertAscBy]
  | y :: ys => by
    simp only [insertAscBy]
    by_cases h : ltb (key x) (key y) = true
    · rw [if_pos h]
    · rw [if_neg h]
      exact ((perm_insertAscBy ltb key x ys).cons y).trans (List.Perm.swap x y ys)

theorem mem_insertDescBy {α β : Type} (ltb : β → β → Bool) (key : α → β) (x a : α) :
    ∀ l : List α, (a ∈ insertDescBy ltb key x l ↔ a = x ∨ a ∈ l)
  | [] => by simp [insertDescBy]
  | y :: ys => by
    simp only [insertDescBy]
    by_cases h : ltb (key y) (key x) = true
    · rw [if_pos h]
      simp only [List.mem_cons]
    · rw [if_neg h]
      simp only [List.mem_cons, mem_insertDescBy ltb key x a ys]
      tauto

theorem perm_insertDescBy {α β : Type} (ltb : β → β → Bool) (key : α → β) (x : α) :
    ∀ l : List α, List.Perm (insertDescBy ltb key x l) (x :: l)
  | [] => by simp [insertDescBy]
  | y :: ys => by
    simp only [insertDescBy]
    by_cases h : ltb (key y) (key x) = true
    · rw [if_pos h]
    · rw [if_neg h]
      exact ((perm_insertDescBy ltb key x ys).cons y).trans (List.Perm.swap x y ys)

theorem foldl_insertAsc_perm {α β : Type} (ltb : β → β → Bool) (key : α → β) :
    ∀ (l acc : List α),
      List.Perm (l.foldl (fun a x => insertAscBy ltb key x a) acc) (acc ++ l)
  | [], acc => by simp
  | x :: rest, acc => by
    have step : List.Perm (insertAscBy ltb key x acc ++ rest) (acc ++ x :: rest) :=
      ((perm_insertAscBy ltb key x acc).append_right rest).trans List.perm_middle.symm
    exact (foldl_insertAsc_perm ltb key rest (insertAscBy ltb key x acc)).trans step

theorem foldl_insertDesc_perm {α β : Type} (ltb : β → β → Bool) (key : α → β) :
    ∀ (l acc : List α),
      List.Perm (l.foldl (fun a x => insertDescBy ltb key x a) acc) (acc ++ l)
  | [], acc => by simp
  | x :: rest, acc => by
    have step : List.Perm (insertDescBy ltb key x acc ++ rest) (acc ++ x :: rest) :=
      ((perm_insertDescBy ltb key x acc).append_right rest).trans List.perm_middle.symm
    exact (foldl_insertDesc_perm ltb key rest (insertDescBy ltb key x acc)).trans step

theorem sortAscBy_perm {α β : Type} (ltb : β → β → Bool) (key : α → β) (l : List α) :
    List.Perm (sortAscBy ltb key l) l := by
  simpa [sortAscBy] using foldl_insertAsc_perm ltb key l []

theorem sortDescBy_perm {α β : Type} (ltb : β → β → Bool) (key : α → β) (l : List α) :
    List.Perm (sortDescBy ltb key l) l := by
  simpa [sortDescBy] using foldl_insertDesc_perm ltb key l []

theorem sortAscBy_length {α β : Type} (ltb : β → β → Bool) (key : α → β) (l : List α) :
    (sortAscBy ltb key l).length = l.length :=
  (sortAscBy_perm ltb key l).length_eq

theorem sortDescBy_length {α β : Type} (ltb : β → β → Bool) (key : α → β) (l : List α) :
    (sortDescBy ltb key l).length = l.length :=
  (sortDescBy_perm ltb key l).length_eq

theorem pairwise_insertAscBy {α : Type} (key : α → Frac) (x : α)
    (hx : 0 < (key x).den) :
    ∀ l : List α, (∀ a ∈ l, 0 < (key a).den) →
      List.Pairwise (fun a b => Frac.blt (key b) (key a) = false) l →
      List.Pairwise (fun a b => Frac.blt (key b) (key a) = false)
        (insertAscBy Frac.blt key x l)
  | [], _, _ => by simp [insertAscBy]
  | y :: ys, hl, h => by
    rw [List.pairwise_cons] at h
    simp only [insertAscBy]
    by_cases hc : Frac.blt (key x) (key y) = true
    · rw [if_pos hc, List.pairwise_cons]
      refine ⟨?_, List.pairwise_cons.mpr h⟩
      intro b hb
      rcases List.mem_cons.mp hb with rfl | hb2
      · exact Frac.blt_asymm hc
      · exact Frac.blt_false_of_blt_left hx (hl y (by simp)) (hl b (by simp [hb2])) hc
          (h.1 b hb2)
    · rw [if_neg (by simp [hc]), List.pairwise_cons]
      refine ⟨?_, pairwise_insertAscBy key x hx ys (fun a ha => hl a (by simp [ha])) h.2⟩
      intro b hb
      rcases (mem_insertAscBy Frac.blt key x b ys).mp hb with rfl | hb2
      · exact eq_false_of_ne_true hc
      · exact h.1 b hb2

theorem pairwise_insertDescBy {α : Type} (key : α → Frac) (x : α)
    (hx : 0 < (key x).den) :
    ∀ l : List α, (∀ a ∈ l, 0 < (key a).den) →
      List.Pairwise (fun a b => Frac.blt (key a) (key b) = false) l →
      List.Pairwise (fun a b => Frac.blt (key a) (key b) = false)
        (insertDescBy Frac.blt key x l)
  | [], _, _ => by simp [insertDescBy]
  | y :: ys, hl, h => by
    rw [List.pairwise_cons] at h
    simp only [insertDescBy]
    by_cases hc : Frac.blt (key y) (key x) = true
    · rw [if_pos hc, List.pairwise_cons]
      refine ⟨?_, List.pairwise_cons.mpr h⟩
      intro b hb
      rcases List.mem_cons.mp hb with rfl | hb2
      · exact Frac.blt_asymm hc
      · exact Frac.blt_false_of_blt_right hx (hl y (by simp)) (hl b (by simp [hb2])) hc
          (h.1 b hb2)
    · rw [if_neg (by simp [hc]), List.pairwise_cons]
      refine ⟨?_, pairwise_insertDescBy key x hx ys (fun a ha => hl a (by simp [ha])) h.2⟩
      intro b hb
      rcases (mem_insertDescBy Frac.blt key x b ys).mp hb with rfl | hb2
      · exact eq_false_of_ne_true hc
      · exact h.1 b hb2

theorem pairwise_foldl_insertAsc {α : Type} (key : α → Frac) :
    ∀ (l acc : List α), (∀ a ∈ l, 0 < (key a).den) → (∀ a ∈ acc, 0 < (key a).den) →
      List.Pairwise (fun a b => Frac.blt (key b) (key a) = false) acc →
      List.Pairwise (fun a b => Frac.blt (key b) (key a) = false)
        (l.foldl (fun a x => insertAscBy Frac.blt key x a) acc)
  | [], _, _, _, hp => hp
  | x :: rest, acc, hl, hacc, hp => by
    refine pairwise_foldl_insertAsc key rest (insertAscBy Frac.blt key x acc)
      (fun a ha => hl a (by simp [ha])) ?_
      (pairwise_insertAscBy key x (hl x (by simp)) acc hacc hp)
    intro a ha
    rcases (mem_insertAscBy Frac.blt key x a acc).mp ha with rfl | ha2
    · exact hl a (by simp)
    · exact hacc a ha2

theorem pairwise_foldl_insertDesc {α : Type} (key : α → Frac) :
    ∀ (l acc : List α), (∀ a ∈ l, 0 < (key a).den) → (∀ a ∈ acc, 0 < (key a).den) →
      List.Pairwise (fun a b => Frac.blt (key a) (key b) = false) acc →
      List.Pairwise (fun a b => Frac.blt (key a) (key b) = false)
        (l.foldl (fun a x => insertDescBy Frac.blt key x a) acc)
  | [], _, _, _, hp => hp
  | x :: rest, acc, hl, hacc, hp => by
    refine pairwise_foldl_insertDesc key rest (insertDescBy Frac.blt key x acc)
      (fun a ha => hl a (by simp [ha])) ?_
      (pairwise_insertDescBy key x (hl x (by simp)) acc hacc hp)
    intro a ha
    rcases (mem_insertDescBy Frac.blt key x a acc).mp ha with rfl | ha2
    · exact hl a (by simp)
    · exact hacc a ha2

theorem pairwise_sortAscBy {α : Type} (key : α → Frac) (l : List α)
    (hl : ∀ a ∈ l, 0 < (key a).den) :
    List.Pairwise (fun a b => Frac.blt (key b) (key a) = false) (sortAscBy Frac.blt key l) :=
  pairwise_foldl_insertAsc key l [] hl (by simp) List.Pairwise.nil

theorem pairwise_sortDescBy {α : Type} (key : α → Frac) (l : List α)
    (hl : ∀ a ∈ l, 0 < (key a).den) :
    List.Pairwise (fun a b => Frac.blt (key a) (key b) = false) (sortDescBy Frac.blt key l) :=
  pairwise_foldl_insertDesc key l [] hl (by simp) List.Pairwise.nil

/-! ## Deduplication lemmas -/

theorem readmitLoop_append {α : Type} [DecidableEq α] (minR : Nat) :
    ∀ (rest u : List α), ∃ ext, readmitLoop minR rest u = u ++ ext
  | [], u => ⟨[], by simp [readmitLoop]⟩
  | p :: rest, u => by
    simp only [readmitLoop]
    by_cases h : p ∈ u
    · rw [if_pos h]
      exact readmitLoop_append minR rest u
    · rw [if_neg h]
      by_cases h2 : minR ≤ (u ++ [p]).length
      · rw [if_pos h2]
        exact ⟨[p], rfl⟩
      · rw [if_neg h2]
        obtain ⟨ext, he⟩ := readmitLoop_append minR rest (u ++ [p])
        exact ⟨p :: ext, by simp [he]⟩

theorem readmitLoop_length_le {α : Type} [DecidableEq α] (minR : Nat)
    (rest u : List α) : u.length ≤ (readmitLoop minR rest u).length := by
  obtain ⟨ext, he⟩ := readmitLoop_append minR rest u
  simp [he]

theorem readmitLoop_mem {α : Type} [DecidableEq α] (minR : Nat) (rest u : List α)
    (x : α) (hx : x ∈ u) : x ∈ readmitLoop minR rest u := by
  obtain ⟨ext, he⟩ := readmitLoop_append minR rest u
  simp [he, hx]

theorem readmitLoop_reach {α : Type} [DecidableEq α] (minR : Nat) :
    ∀ (rest u : List α),
      minR ≤ (readmitLoop minR rest u).length ∨
        ∀ p ∈ rest, p ∈ readmitLoop minR rest u
  | [], _ => Or.inr (by simp)
  | p :: rest, u => by
    simp only [readmitLoop]
    by_cases h : p ∈ u
    · rw [if_pos h]
      rcases readmitLoop_reach minR rest u with hl | hr
      · exact Or.inl hl
      · refine Or.inr fun q hq => ?_
        rcases List.mem_cons.mp hq with rfl | hq2
        · exact readmitLoop_mem minR rest u q h
        · exact hr q hq2
    · rw [if_neg h]
      by_cases h2 : minR ≤ (u ++ [p]).length
      · rw [if_pos h2]
        exact Or.inl h2
      · rw [if_neg h2]
        rcases readmitLoop_reach minR rest (u ++ [p]) with hl | hr
        · exact Or.inl hl
        · refine Or.inr fun q hq => ?_
          rcases List.mem_cons.mp hq with rfl | hq2
          · exact readmitLoop_mem minR rest (u ++ [q]) q (by simp)
          · exact hr q hq2

theorem dedupStep_length_le {α : Type} [DecidableEq α] (dup : α → α → Bool)
    (all : List α) (minR : Nat) (u : List α) (j : α) :
    u.length ≤ (dedupStep dup all minR u j).length := by
  simp only [dedupStep]
  split
  · split
    · exact readmitLoop_length_le _ _ _
    · exact le_refl _
  · split
    · exact le_trans (by simp) (readmitLoop_length_le _ _ _)
    · simp

theorem dedupLoop_length_le {α : Type} [DecidableEq α] (dup : α → α → Bool)
    (all : List α) (minR : Nat) :
    ∀ (rest u : List α), u.length ≤ (dedupLoop dup all minR rest u).length
  | [], _ => le_refl _
  | j :: rest, u => by
    simp only [dedupLoop]
    exact le_trans (dedupStep_length_le dup all minR u j)
      (dedupLoop_length_le dup all minR rest _)

theorem readmitLoop_take {α : Type} [DecidableEq α] (minR : Nat) (all : List α)
    (hnd : all.Nodup) :
    ∀ (rest : List α) (s m : Nat), rest = all.drop s → s ≤ m → m < minR →
      m ≤ all.length →
      readmitLoop minR rest (all.take m) = all.take (min minR all.length)
  | [], s, m, hrest, hsm, hmR, hmn => by
    have hn : all.length ≤ s := by
      have := congrArg List.length hrest
      simp only [List.length_nil, List.length_drop] at this
      omega
    have hm : m = all.length := by omega
    have hmin : min minR all.length = all.length := by omega
    simp [readmitLoop, hm, hmin]
  | p :: rest, s, m, hrest, hsm, hmR, hmn => by
    have hs : s < all.length := by
      by_contra hcon
      rw [List.drop_eq_nil_of_le (not_lt.mp hcon)] at hrest
      exact List.noConfusion hrest
    rw [List.drop_eq_getElem_cons hs] at hrest
    obtain ⟨hp, hrest2⟩ := List.cons.injEq .. ▸ hrest
    simp only [readmitLoop]
    by_cases hmem : p ∈ all.take m
    · rw [if_pos hmem]
      have hsm' : s < m := by
        by_contra hcon
        obtain ⟨i, hi, hieq⟩ := List.getElem_of_mem hmem
        have hi' : i < m := by
          have := hi
          simp only [List.length_take] at this
          omega
        have hilt : i < all.length := by omega
        rw [List.getElem_take] at hieq
        rw [hp] at hieq
        have := (hnd.getElem_inj_iff).mp hieq
        omega
      exact readmitLoop_take minR all hnd rest (s + 1) m hrest2 hsm' hmR hmn
    · rw [if_neg hmem]
      have hsm' : s = m := by
        by_contra hcon
        have hlt : s < m := by omega
        apply hmem
        have hsb : s < (all.take m).length := by simp [List.length_take]; omega
        have : (all.take m)[s] = all[s] := List.getElem_take _
        rw [hp]
        rw [← this]
        exact List.getElem_mem _
      subst hsm'
      have htake : all.take s ++ [p] = all.take (s + 1) := by
        rw [hp, ← List.concat_eq_append]
        exact List.take_concat_get all s hs
      rw [htake]
      by_cases hstop : minR ≤ (all.take (s + 1)).length
      · rw [if_pos hstop]
        have hlen : (all.take (s + 1)).length = s + 1 := by
          simp [List.length_take]
          omega
        have hminR : minR = s + 1 := by omega
        have hmin : min minR all.length = s + 1 := by omega
        rw [hmin]
      · rw [if_neg hstop]
        have hlen : (all.take (s + 1)).length = s + 1 := by
          simp [List.length_take]
          omega
        exact readmitLoop_take minR all hnd rest (s + 1) (s + 1) hrest2 (le_refl _)
          (by omega) (by omega)

theorem dedupLoop_take_id {α : Type} [DecidableEq α] (dup : α → α → Bool)
    (all : List α) (minR : Nat) (hnd : all.Nodup)
    (hself : ∀ x ∈ all, dup x x = true)
    (hpair : ∀ (i j : Nat) (hi : i < all.length) (hj : j < all.length), i ≠ j →
      dup (all.get ⟨i, hi⟩) (all.get ⟨j, hj⟩) = false) :
    ∀ (rest : List α) (t m : Nat), rest = all.drop t → t ≤ m → m ≤ max t minR →
      m ≤ all.length →
      dedupLoop dup all minR rest (all.take m) = all
  | [], t, m, hrest, htm, hmmax, hmn => by
    have hn : all.length ≤ t := by
      have := congrArg List.length hrest
      simp only [List.length_nil, List.length_drop] at this
      omega
    have hm : m = all.length := by omega
    simp [dedupLoop, hm]
  | j :: rest, t, m, hrest, htm, hmmax, hmn => by
    have ht : t < all.length := by
      by_contra hcon
      rw [List.drop_eq_nil_of_le (not_lt.mp hcon)] at hrest
      exact List.noConfusion hrest
    rw [List.drop_eq_getElem_cons ht] at hrest
    obtain ⟨hj, hrest2⟩ := List.cons.injEq .. ▸ hrest
    simp only [dedupLoop, dedupStep]
    by_cases hcase : t < m
    · -- the record was already re-admitted: it duplicates itself
      have hmem : j ∈ all.take m := by
        have htb : t < (all.take m).length := by simp [List.length_take]; omega
        have : (all.take m)[t] = all[t] := List.getElem_take _
        rw [hj, ← this]
        exact List.getElem_mem _
      have hany : (all.take m).any (fun e => dup j e) = true :=
        List.any_eq_true.mpr ⟨j, hmem, by rw [hself j (hj ▸ List.getElem_mem _)]⟩
      rw [hany, if_pos rfl]
      have hlen : (all.take m).length = m := by simp [List.length_take]; omega
      split
      · next hcond =>
        have hmR : m < minR := by
          rw [Bool.and_eq_true] at hcond
          have := of_decide_eq_true hcond.1
          omega
        rw [readmitLoop_take minR all hnd all 0 m (by simp) (Nat.zero_le _) hmR hmn]
        exact dedupLoop_take_id dup all minR hnd hself hpair rest (t + 1)
          (min minR all.length) hrest2 (by omega) (by omega) (by omega)
      · exact dedupLoop_take_id dup all minR hnd hself hpair rest (t + 1) m
          hrest2 (by omega) (by omega) hmn
    · -- a fresh record: no kept record duplicates it
      have htm' : t = m := by omega
      subst htm'
      have hany : (all.take t).any (fun e => dup j e) = false := by
        rw [List.any_eq_false]
        intro e he
        obtain ⟨i, hi, hieq⟩ := List.getElem_of_mem he
        have hi' : i < t := by
          have := hi
          simp only [List.length_take] at this
          omega
        have hilt : i < all.length := by omega
        rw [List.getElem_take] at hieq
        rw [← hieq, hj]
        simp only [Bool.not_eq_true]
        exact hpair t i ht hilt (by omega)
      have htake : all.take t ++ [j] = all.take (t + 1) := by
        rw [hj, ← List.concat_eq_append]
        exact List.take_concat_get all t ht
      have hu1 : (if ((all.take t).any fun e => dup j e) = true then all.take t
          else all.take t ++ [j]) = all.take (t + 1) := by
        rw [hany]
        rw [if_neg (by simp)]
        exact htake
      rw [hu1]
      have hlen : (all.take (t + 1)).length = t + 1 := by
        simp [List.length_take]
        omega
      split
      · next hcond =>
        have hmR : t + 1 < minR := by
          rw [Bool.and_eq_true] at hcond
          have := of_decide_eq_true hcond.1
          omega
        rw [readmitLoop_take minR all hnd all 0 (t + 1) (by simp) (Nat.zero_le _) hmR
          (by omega)]
        exact dedupLoop_take_id dup all minR hnd hself hpair rest (t + 1)
          (min minR all.length) hrest2 (by omega) (by omega) (by omega)
      · exact dedupLoop_take_id dup all minR hnd hself hpair rest (t + 1) (t + 1)
          hrest2 (le_refl _) (by omega) (by omega)

/-- On a list whose records pairwise duplicate only themselves,
`remove_duplicate_jobs` is the identity: nothing is removed, and the
re-admission pass only restores records the scan will later visit. -/
theorem removeDuplicates_id {α : Type} [DecidableEq α] (dup : α → α → Bool)
    (jobs : List α) (minR : Nat) (hnd : jobs.Nodup)
    (hself : ∀ x ∈ jobs, dup x x = true)
    (hpair : ∀ (i j : Nat) (hi : i < jobs.length) (hj : j < jobs.length), i ≠ j →
      dup (jobs.get ⟨i, hi⟩) (jobs.get ⟨j, hj⟩) = false) :
    removeDuplicates dup jobs minR = jobs := by
  unfold removeDuplicates
  by_cases h0 : jobs.isEmpty
  · rw [if_pos h0]
    exact (List.isEmpty_iff.mp h0).symm
  · rw [if_neg h0]
    by_cases h1 : jobs.length ≤ minR
    · rw [if_pos h1]
    · rw [if_neg h1]
      have := dedupLoop_take_id dup jobs minR hnd hself hpair jobs 0 0 rfl (le_refl _)
        (Nat.zero_le _) (Nat.zero_le _)
      simpa using this

/-- The minimum-size guarantee that the code actually provides: with at
least `min_results ≥ 2` pairwise-distinct records and at least four
records in total, the lenient clause fires on the first iteration
(unprocessed records count as removed) and re-admission fills the output
to `min_results`. -/
theorem removeDuplicates_min {α : Type} [DecidableEq α] (dup : α → α → Bool)
    (jobs : List α) (minR : Nat) (h2 : 2 ≤ minR) (h4 : 4 ≤ jobs.length)
    (hdistinct : minR ≤ jobs.dedup.length) :
    min minR jobs.length ≤ (removeDuplicates dup jobs minR).length := by
  unfold removeDuplicates
  by_cases h0 : jobs.isEmpty
  · rw [List.isEmpty_iff.mp h0] at h4
    simp at h4
  · rw [if_neg h0]
    by_cases h1 : jobs.length ≤ minR
    · rw [if_pos h1]
      exact min_le_right _ _
    · rw [if_neg h1]
      cases jobs with
      | nil => simp at h4
      | cons j0 rest =>
        have hminR : min minR (j0 :: rest).length = minR :=
          min_eq_left (by omega)
        rw [hminR]
        simp only [dedupLoop, dedupStep]
        have hany : List.any [] (fun e => dup j0 e) = false := rfl
        rw [show (if List.any [] (fun e => dup j0 e) = true then ([] : List α)
          else [] ++ [j0]) = [j0] by simp]
        have hcond : (([j0] : List α).length < minR &&
            10 * ((j0 :: rest).length - ([j0] : List α).length) >
              7 * (j0 :: rest).length) = true := by
          simp only [List.length_cons, List.length_nil, Bool.and_eq_true,
            decide_eq_true_eq] at h4 ⊢
          omega
        rw [if_pos hcond]
        have hlen : minR ≤ (readmitLoop minR (j0 :: rest) [j0]).length := by
          rcases readmitLoop_reach minR (j0 :: rest) [j0] with hl | hr
          · exact hl
          · have hsub : (j0 :: rest).dedup ⊆ readmitLoop minR (j0 :: rest) [j0] :=
              fun x hx => hr x (List.mem_dedup.mp hx)
            have := ((List.nodup_dedup (j0 :: rest)).subperm hsub).length_le
            omega
        exact le_trans hlen (dedupLoop_length_le dup (j0 :: rest) minR rest _)

/-! ## Small string helpers -/

theorem lower_isEmpty (s : Str) : (lower s).isEmpty = s.isEmpty := by
  cases s <;> rfl

theorem isEmpty_false_of_ne_nil {s : Str} (h : s ≠ []) : s.isEmpty = false := by
  cases s with
  | nil => exact absurd rfl h
  | cons c cs => rfl

/-! ## Claim C3 -/

/-- C3 (counterexample): three copies of one record with `min_results = 2`
satisfy `len(L) > min_results`, yet `remove_duplicate_jobs` keeps only one
record — below `min(min_results, len(L))` — because only 2 of 3 records
(66%) are removed, so the 70% re-admission clause never fires. -/
theorem C3_counterexample :
    2 < jobsC3.length ∧
      (remove_duplicate_jobs jobsC3 2).length < min 2 jobsC3.length := by
  decide

/-- C3 (amended): for `len(L) > min_results`, the output of
`remove_duplicate_jobs(L, min_results)` has length at least
`min(min_results, len(L))` provided `min_results ≥ 2`, `len(L) ≥ 4`, and
`L` holds at least `min_results` pairwise-distinct records; the
re-admission clause counts unprocessed records as removed, so on such
lists it fires on the first iteration and restores records in their
original order until `min_results` is met. -/
theorem C3_dedup_min_guarantee (jobs : List Job) (minR : Nat)
    (_hgt : minR < jobs.length) (h2 : 2 ≤ minR) (h4 : 4 ≤ jobs.length)
    (hdistinct : minR ≤ jobs.dedup.length) :
    min minR jobs.length ≤ (remove_duplicate_jobs jobs minR).length :=
  removeDuplicates_min is_duplicate_job jobs minR h2 h4 hdistinct

/-- Four pairwise-distinct records. -/
def jobsC3w : List Job :=
  [{ title := some (str "alpha"), company := some (str "a") },
   { title := some (str "beta"), company := some (str "b") },
   { title := some (str "gamma"), company := some (str "c") },
   { title := some (str "delta"), company := some (str "d") }]

theorem C3_witness :
    min 2 jobsC3w.length ≤ (remove_duplicate_jobs jobsC3w 2).length :=
  C3_dedup_min_guarantee jobsC3w 2 (by decide) (by decide) (by decide) (by decide)

/-! ## Claim C7 -/

/-- C7 (counterexample): two records with identical non-empty redirect
URLs where one record lacks a title are *not* judged duplicates — the
source returns `False` on a missing title or company before it consults
the URLs. -/
theorem C7_counterexample :
    urlJob1.redirect_url = some (str "http://u") ∧
      urlJob2.redirect_url = some (str "http://u") ∧
      str "http://u" ≠ [] ∧
      is_duplicate_job urlJob1 urlJob2 = false := by
  decide

/-- C7 (amended): records with identical non-empty redirect URLs are
judged duplicates provided both titles and both companies are also
non-empty; the verdict is then independent of the locations and of the
actual similarity ratios. -/
theorem C7_url_duplicate (j1 j2 : Job)
    (ht1 : j1.title.getD [] ≠ []) (ht2 : j2.title.getD [] ≠ [])
    (hc1 : j1.company.getD [] ≠ []) (hc2 : j2.company.getD [] ≠ [])
    (hu1 : j1.redirect_url.getD [] ≠ [])
    (hu : lower (j1.redirect_url.getD []) = lower (j2.redirect_url.getD [])) :
    is_duplicate_job j1 j2 = true := by
  have hu2 : j2.redirect_url.getD [] ≠ [] := by
    intro hnil
    rw [hnil] at hu
    exact hu1 (List.map_eq_nil_iff.mp hu)
  have e1 := isEmpty_false_of_ne_nil ht1
  have e2 := isEmpty_false_of_ne_nil ht2
  have e3 := isEmpty_false_of_ne_nil hc1
  have e4 := isEmpty_false_of_ne_nil hc2
  have f1 : (lower (j1.redirect_url.getD [])).isEmpty = false := by
    rw [lower_isEmpty]
    exact isEmpty_false_of_ne_nil hu1
  have f2 : (lower (j2.redirect_url.getD [])).isEmpty = false := by
    rw [lower_isEmpty]
    exact isEmpty_false_of_ne_nil hu2
  simp only [is_duplicate_job, lower_isEmpty, e1, e2, e3, e4, f1, f2, hu,
    Bool.or_self, Bool.or_false, Bool.false_or, Bool.not_false, Bool.true_and,
    Bool.and_true, if_false, Bool.false_eq_true, decide_True, if_true]

theorem C7_witness : is_duplicate_job
    { title := some (str "t1"), company := some (str "c1"),
      redirect_url := some (str "http://u") }
    { title := some (str "t2"), company := some (str "c2"),
      redirect_url := some (str "HTTP://U") } = true :=
  C7_url_duplicate _ _ (by decide) (by decide) (by decide) (by decide) (by decide)
    (by decide)

/-! ## Claim C2 -/

/-- C2: the failing input evaluated: both snapshot artifacts exist, the
index artifact reads back, the data pickle is unreadable; `load` returns
`False` but the store is no longer what it was — the FAISS index has
been replaced while the records and the position map kept their old
values. -/
theorem C2_partial_load :
    (loadStore fsC2 nameC2 {}).1 = false ∧
      (loadStore fsC2 nameC2 {}).2 ≠ ({} : Store) := by
  decide

/-! ## Claim C8 -/

/-- C8: saving a store and loading it back into a fresh store restores
exactly the record list, index and position map, so the record count and
the search results (hence their similarity-score ordering) for any fixed
query coincide with the original store's. -/
theorem C8_round_trip (env : Env) (st : Store) (name : Str) (fs : FS)
    (fresh : Store) (query : Str) (k : Nat) (pred : Option (Job → Bool))
    (_hne : st.jobs ≠ []) :
    (saveStore st name fs).1 = true ∧
      (loadStore (saveStore st name fs).2 name fresh).1 = true ∧
      (loadStore (saveStore st name fs).2 name fresh).2.jobs.length =
        st.jobs.length ∧
      searchSimilar env (loadStore (saveStore st name fs).2 name fresh).2 query k
        pred = searchSimilar env st query k pred := by
  have hload : loadStore (saveStore st name fs).2 name fresh = (true, st) := by
    simp [loadStore, saveStore]
  rw [hload]
  exact ⟨rfl, rfl, rfl, rfl⟩

/-- A one-record store used to instantiate the round-trip theorem. -/
def stC8 : Store := { jobs := [dupJob], index := [[Frac.ofInt 1]], map := [(0, 0)] }

/-- An empty file system. -/
def fsEmpty : FS := { indexFile := fun _ => none, dataFile := fun _ => none }

theorem C8_witness :
    (saveStore stC8 nameC2 fsEmpty).1 = true ∧
      (loadStore (saveStore stC8 nameC2 fsEmpty).2 nameC2 {}).1 = true ∧
      (loadStore (saveStore stC8 nameC2 fsEmpty).2 nameC2 {}).2.jobs.length =
        stC8.jobs.length ∧
      searchSimilar envC6 (loadStore (saveStore stC8 nameC2 fsEmpty).2 nameC2 {}).2
        (str "q") 3 none = searchSimilar envC6 stC8 (str "q") 3 none :=
  C8_round_trip envC6 stC8 nameC2 fsEmpty {} (str "q") 3 none (by decide)

/-! ## Claim C1: ingestion alignment -/

theorem embedded_nil (env : Env) : embedded env [] = [] := rfl

theorem embedded_cons_none (env : Env) {j : Job} (h : env.embed (canonicalText j) = none)
    (batch : List Job) : embedded env (j :: batch) = embedded env batch := by
  simp [embedded, List.filterMap_cons, h]

theorem embedded_cons_some (env : Env) {j : Job} {v : List Frac}
    (h : env.embed (canonicalText j) = some v) (batch : List Job) :
    embedded env (j :: batch) = (j, v) :: embedded env batch := by
  simp [embedded, List.filterMap_cons, h]

theorem embedded_spec (env : Env) (batch : List Job) :
    ∀ p ∈ embedded env batch, env.embed (canonicalText p.1) = some p.2 := by
  intro p hp
  simp only [embedded, List.mem_filterMap] at hp
  obtain ⟨j, _hj, he⟩ := hp
  cases h : env.embed (canonicalText j) with
  | none => rw [h] at he; simp at he
  | some v =>
    rw [h] at he
    simp only [Option.map_some', Option.some.injEq] at he
    rw [← he]
    exact h

theorem mkKeys_zero (s : Nat) : mkKeys s 0 = [] := rfl

theorem mkKeys_succ (s n : Nat) : mkKeys s (n + 1) = (s + n, s + n) :: mkKeys s n := by
  simp [mkKeys, List.range_succ]

theorem mkKeys_succ_left (s : Nat) :
    ∀ n, mkKeys s (n + 1) = mkKeys (s + 1) n ++ [(s, s)]
  | 0 => by simp [mkKeys, List.range_succ]
  | n + 1 => by
    rw [mkKeys_succ s (n + 1), mkKeys_succ_left s n, mkKeys_succ (s + 1) n]
    have h : s + (n + 1) = s + 1 + n := by omega
    rw [h]
    rfl

theorem lookup_mkKeys_append (m : List (Nat × Nat)) (x s : Nat) :
    ∀ n, List.lookup x (mkKeys s n ++ m) =
      if s ≤ x ∧ x < s + n then some x else List.lookup x m
  | 0 => by
    rw [mkKeys_zero, List.nil_append, if_neg (by omega)]
  | n + 1 => by
    rw [mkKeys_succ, List.cons_append, List.lookup_cons]
    by_cases hx : x = s + n
    · have hbeq : (x == s + n) = true := beq_iff_eq.mpr hx
      rw [hbeq]
      rw [if_pos (by omega)]
      simp [hx]
    · have hbeq : (x == s + n) = false := beq_eq_false_iff_ne.mpr hx
      rw [hbeq]
      rw [lookup_mkKeys_append m x s n]
      by_cases hin : s ≤ x ∧ x < s + n
      · rw [if_pos hin, if_pos (by omega)]
      · rw [if_neg hin, if_neg (by omega)]

theorem addLoop_eq (env : Env) (current : Nat) :
    ∀ (batch : List Job) (added : Nat) (vecs : List (List Frac)) (valid : List Job)
      (m : List (Nat × Nat)),
      addLoop env current batch added vecs valid m =
        (added + (embedded env batch).length,
          vecs ++ (embedded env batch).map Prod.snd,
          valid ++ (embedded env batch).map Prod.fst,
          mkKeys (current + added) (embedded env batch).length ++ m)
  | [], added, vecs, valid, m => by
    simp [addLoop, embedded_nil, mkKeys_zero]
  | j :: batch, added, vecs, valid, m => by
    cases h : env.embed (canonicalText j) with
    | none =>
      rw [show addLoop env current (j :: batch) added vecs valid m =
        addLoop env current batch added vecs valid m by simp [addLoop, h]]
      rw [addLoop_eq env current batch added vecs valid m, embedded_cons_none env h]
    | some v =>
      rw [show addLoop env current (j :: batch) added vecs valid m =
        addLoop env current batch (added + 1) (vecs ++ [v]) (valid ++ [j])
          ((current + added, current + added) :: m) by simp [addLoop, h]]
      rw [addLoop_eq env current batch (added + 1) (vecs ++ [v]) (valid ++ [j]) _,
        embedded_cons_some env h]
      refine Prod.ext ?_ (Prod.ext ?_ (Prod.ext ?_ ?_)) <;> simp
      · omega
      · have harith : current + (added + 1) = current + added + 1 := by omega
        rw [harith, mkKeys_succ_left, List.append_assoc, List.singleton_append]

theorem addBatch_fields (env : Env) (st : Store) (batch : List Job) :
    (addBatch env st batch).1.jobs = st.jobs ++ (embedded env batch).map Prod.fst ∧
      (addBatch env st batch).1.index =
        st.index ++ (embedded env batch).map Prod.snd ∧
      (addBatch env st batch).1.map =
        mkKeys st.jobs.length (embedded env batch).length ++ st.map := by
  have := addLoop_eq env st.jobs.length batch 0 [] [] st.map
  simp [addBatch, this]

/-- Ingesting a batch preserves the alignment invariant: the skipped
records advance no position, and each accepted record's vector lands at
the position the extended map binds to it. -/
theorem addBatch_aligned (env : Env) (st : Store) (batch : List Job)
    (h : Aligned env st) : Aligned env (addBatch env st batch).1 := by
  obtain ⟨hlen, hpos⟩ := h
  obtain ⟨hjobs, hindex, hmap⟩ := addBatch_fields env st batch
  constructor
  · rw [hjobs, hindex]
    simp [hlen]
  · intro i hi
    rw [hindex] at hi
    simp only [List.length_append, List.length_map] at hi
    rw [hjobs, hindex, hmap]
    by_cases hcase : i < st.index.length
    · -- an old position: untouched by the batch
      refine ⟨?_, ?_⟩
      · rw [lookup_mkKeys_append, if_neg (by omega)]
        exact (hpos i hcase).1
      · rw [List.getElem?_append_left (by omega : i < st.jobs.length),
          List.getElem?_append_left hcase]
        exact (hpos i hcase).2
    · -- a fresh position filled by the batch
      have hilt : i - st.jobs.length < (embedded env batch).length := by omega
      refine ⟨?_, ?_⟩
      · rw [lookup_mkKeys_append, if_pos (by omega)]
      · rw [List.getElem?_append_right (by omega), List.getElem?_append_right (by omega)]
        have hfst : ((embedded env batch).map Prod.fst)[i - st.jobs.length]? =
            some ((embedded env batch)[i - st.jobs.length]).1 := by
          rw [List.getElem?_map, List.getElem?_eq_getElem hilt]
          rfl
        have hsnd : ((embedded env batch).map Prod.snd)[i - st.index.length]? =
            some ((embedded env batch)[i - st.jobs.length]).2 := by
          rw [show i - st.index.length = i - st.jobs.length by omega]
          rw [List.getElem?_map, List.getElem?_eq_getElem hilt]
          rfl
        rw [hfst, hsnd, Option.some_bind]
        exact embedded_spec env batch _ (List.getElem_mem _)

/-- C1: for every sequence of `add_jobs_from_dataframe` calls on a fresh
store, the vector at every index position `i` is the embedding of the
canonical text of the record at `position_map[i]` (and the position map
binds `i` to `i`); a record whose embedding raises is skipped and
advances no position, preserving the invariant on every batch. -/
theorem C1_alignment (env : Env) (st : Store) (h : Reachable env st) :
    Aligned env st := by
  induction h with
  | init => exact ⟨rfl, fun i hi => absurd hi (by simp)⟩
  | step st batch _ ih => exact addBatch_aligned env st batch ih

theorem C1_witness : Aligned envC6 stC6 :=
  C1_alignment envC6 stC6 (Reachable.step {} jobsC6 Reachable.init)

/-! ## Search-layer lemmas -/

theorem scanLoop_cons (k : Nat) (jobs : List Job) (m : List (Nat × Nat))
    (pred : Option (Job → Bool)) (c : Frac × Nat) (rest : List (Frac × Nat))
    (acc : List PJob) :
    scanLoop k jobs m pred (c :: rest) acc =
      match scanAccept jobs m pred c with
      | none => scanLoop k jobs m pred rest acc
      | some pj =>
        if k ≤ (acc ++ [pj]).length then acc ++ [pj]
        else scanLoop k jobs m pred rest (acc ++ [pj]) := by
  obtain ⟨dist, idx⟩ := c
  simp only [scanLoop, scanAccept]
  by_cases h1 : jobs.length ≤ idx
  · rw [if_pos h1, if_pos h1]
  · rw [if_neg h1, if_neg h1]
    cases hl : List.lookup idx m with
    | none => rfl
    | some jid =>
      dsimp only
      by_cases h2 : jobs.length ≤ jid
      · rw [if_pos h2, if_pos h2]
      · rw [if_neg h2, if_neg h2]
        by_cases h3 : (match pred with
          | some f => !f (jobs.getD jid {})
          | none => false) = true
        · rw [if_pos h3, if_pos h3]
        · rw [if_neg h3, if_neg h3]

theorem scanLoop_eq (k : Nat) (jobs : List Job) (m : List (Nat × Nat))
    (pred : Option (Job → Bool)) :
    ∀ (cands : List (Frac × Nat)) (acc : List PJob), acc.length < max k 1 →
      scanLoop k jobs m pred cands acc =
        acc ++ (cands.filterMap (scanAccept jobs m pred)).take (max k 1 - acc.length)
  | [], acc, _ => by simp [scanLoop]
  | c :: rest, acc, hacc => by
    rw [scanLoop_cons]
    cases hsc : scanAccept jobs m pred c with
    | none =>
      rw [scanLoop_eq k jobs m pred rest acc hacc, List.filterMap_cons_none hsc]
    | some pj =>
      dsimp only
      rw [List.filterMap_cons_some hsc]
      by_cases hstop : k ≤ (acc ++ [pj]).length
      · rw [if_pos hstop]
        have h1 : max k 1 - acc.length = 1 := by
          simp only [List.length_append, List.length_singleton] at hstop
          omega
        rw [h1]
        simp
      · rw [if_neg hstop]
        rw [scanLoop_eq k jobs m pred rest (acc ++ [pj]) (by
          simp only [List.length_append, List.length_singleton] at hstop ⊢
          omega)]
        rw [show max k 1 - acc.length = (max k 1 - (acc ++ [pj]).length) + 1 by
          simp only [List.length_append, List.length_singleton] at hstop ⊢
          omega]
        rw [List.take_succ_cons, List.append_assoc, List.singleton_append]

theorem scanAccept_score {jobs : List Job} {m : List (Nat × Nat)}
    {pred : Option (Job → Bool)} {c : Frac × Nat} {pj : PJob}
    (h : scanAccept jobs m pred c = some pj) :
    pj.score = some (Frac.div (Frac.ofInt 1) (Frac.add (Frac.ofInt 1) c.1)) := by
  simp only [scanAccept] at h
  split at h
  · exact absurd h (by simp)
  · split at h
    · exact absurd h (by simp)
    · split at h
      · exact absurd h (by simp)
      · split at h
        · exact absurd h (by simp)
        · rw [Option.some.injEq] at h
          rw [← h]

theorem faissSearch_length (index : List (List Frac)) (q : List Frac) (topk : Nat) :
    (faissSearch index q topk).length = min topk index.length := by
  simp [faissSearch, List.length_take, sortAscBy_length]

theorem faissSearch_mem (index : List (List Frac)) (q : List Frac) (topk : Nat)
    (c : Frac × Nat) (hc : c ∈ faissSearch index q topk) :
    c.2 < index.length ∧ ∃ v ∈ index, c.1 = l2sq q v := by
  have h1 : c ∈ sortAscBy Frac.blt Prod.fst
      (index.enum.map fun p => (l2sq q p.2, p.1)) :=
    List.mem_of_mem_take hc
  have h2 : c ∈ index.enum.map fun p => (l2sq q p.2, p.1) :=
    (sortAscBy_perm Frac.blt Prod.fst _).mem_iff.mp h1
  simp only [List.mem_map] at h2
  obtain ⟨p, hp, hpc⟩ := h2
  have hg := List.mem_enum_iff_getElem?.mp hp
  have hlt : p.1 < index.length := (List.getElem?_eq_some.mp hg).1
  have hmem : p.2 ∈ index := List.getElem?_mem hg
  constructor
  · rw [← hpc]
    exact hlt
  · exact ⟨p.2, hmem, by rw [← hpc]⟩

/-- The index components of the FAISS scan output are pairwise distinct. -/
theorem faissSearch_nodup (index : List (List Frac)) (q : List Frac) (topk : Nat) :
    ((faissSearch index q topk).map Prod.snd).Nodup := by
  have hperm : List.Perm
      ((sortAscBy Frac.blt Prod.fst (index.enum.map fun p => (l2sq q p.2, p.1))).map
        Prod.snd)
      ((index.enum.map fun p => (l2sq q p.2, p.1)).map Prod.snd) :=
    (sortAscBy_perm Frac.blt Prod.fst _).map Prod.snd
  have hbase : ((index.enum.map fun p => (l2sq q p.2, p.1)).map Prod.snd).Nodup := by
    rw [List.map_map]
    have : (Prod.snd ∘ fun p : Nat × List Frac => (l2sq q p.2, p.1)) = Prod.fst := by
      funext p
      rfl
    rw [this, List.enum_map_fst]
    exact List.nodup_range _
  have hsort : ((sortAscBy Frac.blt Prod.fst
      (index.enum.map fun p => (l2sq q p.2, p.1))).map Prod.snd).Nodup :=
    hperm.nodup_iff.mpr hbase
  rw [faissSearch, List.map_take]
  exact List.Nodup.sublist (List.take_sublist topk _) hsort

/-! ## Fallback-path lemmas -/

theorem fallbackScored_score {jobs : List Job} {terms : List Str}
    {pred : Option (Job → Bool)} {pj : PJob} (h : pj ∈ fallbackScored jobs terms pred) :
    ∃ mm : Nat,
      pj.score = some (Frac.div (Frac.ofInt mm) (Frac.ofInt (max 1 terms.length))) := by
  simp only [fallbackScored, List.mem_filterMap] at h
  obtain ⟨job, _hjob, he⟩ := h
  split at he
  · exact absurd he (by simp)
  · split at he
    · rw [Option.some.injEq] at he
      rw [← he]
      exact ⟨_, rfl⟩
    · exact absurd he (by simp)

theorem fallbackScored_den_pos {jobs : List Job} {terms : List Str}
    {pred : Option (Job → Bool)} {pj : PJob} (h : pj ∈ fallbackScored jobs terms pred) :
    0 < (pj.score.getD default).den := by
  obtain ⟨mm, hs⟩ := fallbackScored_score h
  rw [hs]
  simp only [Option.getD_some, Frac.div, Frac.ofInt]
  have : (1 : Nat) ≤ max 1 terms.length := le_max_left _ _
  simp only [one_mul]
  omega

theorem fallback_pairwise (env : Env) (st : Store) (query : Str) (k : Nat)
    (pred : Option (Job → Bool)) :
    List.Pairwise (fun a b : PJob =>
      Frac.ble (b.score.getD default) (a.score.getD default) = true)
      (fallbackSearch env st query k pred) := by
  simp only [fallbackSearch]
  have hpos : ∀ a ∈ fallbackScored st.jobs (splitWs (lower query)) pred,
      0 < ((fun pj : PJob => pj.score.getD default) a).den :=
    fun a ha => fallbackScored_den_pos ha
  have hsorted := pairwise_sortDescBy (fun pj : PJob => pj.score.getD default)
    (fallbackScored st.jobs (splitWs (lower query)) pred) hpos
  split
  · next hempty =>
    rw [List.isEmpty_iff.mp hempty, List.nil_append]
    refine List.Pairwise.sublist (List.take_sublist _ _) ?_
    refine List.pairwise_of_forall_mem_list ?_
    intro a ha b hb
    simp only [List.mem_map] at ha hb
    obtain ⟨ja, _, hja⟩ := ha
    obtain ⟨jb, _, hjb⟩ := hb
    rw [← hja, ← hjb]
    rfl
  · exact List.Pairwise.sublist (List.take_sublist _ _)
      (hsorted.imp fun hab => Frac.ble_of_blt_false hab)

theorem fallback_isSome (env : Env) (st : Store) (query : Str) (k : Nat)
    (pred : Option (Job → Bool)) :
    ∀ pj ∈ fallbackSearch env st query k pred, pj.score.isSome := by
  intro pj hpj
  simp only [fallbackSearch] at hpj
  have hpj2 := List.mem_of_mem_take hpj
  split at hpj2
  · rcases List.mem_append.mp hpj2 with hs | hs
    · have := (sortDescBy_perm Frac.blt (fun pj : PJob => pj.score.getD default)
        _).mem_iff.mp hs
      obtain ⟨mm, hsc⟩ := fallbackScored_score this
      rw [hsc]
      rfl
    · simp only [List.mem_map] at hs
      obtain ⟨j, _, hj⟩ := hs
      rw [← hj]
      rfl
  · have := (sortDescBy_perm Frac.blt (fun pj : PJob => pj.score.getD default)
      _).mem_iff.mp hpj2
    obtain ⟨mm, hsc⟩ := fallbackScored_score this
    rw [hsc]
    rfl

theorem fallbackSearch_ne_nil (env : Env) (st : Store) (query : Str) (k : Nat)
    (pred : Option (Job → Bool)) (hk : 1 ≤ k) (hjobs : st.jobs ≠ [])
    (hsample : ∀ l n, (env.sample l n).length = min n l.length) :
    fallbackSearch env st query k pred ≠ [] := by
  simp only [fallbackSearch]
  intro hcon
  rw [List.take_eq_nil_iff] at hcon
  rcases hcon with hcon | hcon
  · omega
  · split at hcon
    · rw [List.append_eq_nil] at hcon
      have hlen := congrArg List.length hcon.2
      rw [List.length_map, hsample, List.length_nil] at hlen
      have h1 : st.jobs.length ≠ 0 := fun hz => hjobs (List.length_eq_zero.mp hz)
      have h2 : min (min k st.jobs.length) st.jobs.length = 0 := hlen
      omega
    · next hnotempty =>
      exact hnotempty (List.isEmpty_iff.mpr hcon)

/-! ## Distance and score facts -/

theorem foldl_add_den_pos :
    ∀ (l : List Frac) (acc : Frac), 0 < acc.den → (∀ x ∈ l, 0 < x.den) →
      0 < (l.foldl Frac.add acc).den
  | [], _, ha, _ => ha
  | x :: rest, acc, ha, hl => by
    refine foldl_add_den_pos rest (acc.add x) ?_ fun y hy => hl y (by simp [hy])
    simp only [Frac.add]
    exact mul_pos ha (hl x (by simp))

theorem l2sq_den_pos {q v : List Frac} (hq : WfVec q) (hv : WfVec v) :
    0 < (l2sq q v).den := by
  apply foldl_add_den_pos
  · norm_num [Frac.ofInt]
  · intro x hx
    simp only [List.mem_map] at hx
    obtain ⟨p, hp, hxp⟩ := hx
    obtain ⟨h1, h2⟩ := List.of_mem_zip hp
    rw [← hxp]
    simp only [Frac.mul, Frac.sub]
    exact mul_pos (mul_pos (hq _ h1) (hv _ h2)) (mul_pos (hq _ h1) (hv _ h2))

/-- `1/(1+d)` is antitone in the (cross-multiplied) order of distances;
the inequality holds without any sign side conditions because `div`
swaps the fraction's components exactly. -/
theorem score_antitone {d1 d2 : Frac} (h : Frac.blt d2 d1 = false) :
    Frac.ble (Frac.div (Frac.ofInt 1) (Frac.add (Frac.ofInt 1) d2))
      (Frac.div (Frac.ofInt 1) (Frac.add (Frac.ofInt 1) d1)) = true := by
  simp only [Frac.blt, Frac.ble, Frac.div, Frac.add, Frac.ofInt,
    decide_eq_false_iff_not, decide_eq_true_eq, not_lt] at *
  nlinarith [h]

/-! ## Claim C5 -/

/-- C5: for `k ≥ 1`, `search_similar_jobs` returns the empty list exactly
when the store is empty: an empty store short-circuits to `[]`, and on a
non-empty store every path — vector scan, keyword fallback, and the
random last-resort sample of `min(k, n)` records — produces at least one
result. -/
theorem C5_empty_iff (env : Env) (st : Store) (query : Str) (k : Nat)
    (pred : Option (Job → Bool)) (hk : 1 ≤ k)
    (hsample : ∀ l n, (env.sample l n).length = min n l.length) :
    searchSimilar env st query k pred = [] ↔ st.jobs = [] := by
  constructor
  · intro h
    by_contra hne
    have hne' : ¬st.jobs.isEmpty = true := fun hh => hne (List.isEmpty_iff.mp hh)
    simp only [searchSimilar] at h
    rw [if_neg hne'] at h
    cases henc : env.embed query with
    | none =>
      rw [henc] at h
      exact fallbackSearch_ne_nil env st query k pred hk hne hsample h
    | some qv =>
      rw [henc] at h
      dsimp only at h
      split at h
      · exact fallbackSearch_ne_nil env st query k pred hk hne hsample h
      · next hres => exact hres (List.isEmpty_iff.mpr h)
  · intro h
    simp [searchSimilar, h]

/-- A one-record store and an environment whose sampler satisfies the
`random.sample` length contract. -/
theorem C5_witness :
    searchSimilar envC6 stC8 (str "zzz") 1 none = [] ↔ stC8.jobs = [] :=
  C5_empty_iff envC6 stC8 (str "zzz") 1 none (by decide)
    (fun l n => by simp [envC6])

/-! ## Claim C9 -/

/-- C9: on every path (vector distance, keyword fallback, random
last-resort) the result list of `search_similar_jobs` carries a
`similarity_score` on every record and is ordered by non-increasing
score. -/
theorem C9_similarity_ordering (env : Env) (st : Store) (query : Str) (k : Nat)
    (pred : Option (Job → Bool)) (hwf : WfEmbed env)
    (hidx : ∀ v ∈ st.index, WfVec v) :
    (∀ pj ∈ searchSimilar env st query k pred, pj.score.isSome) ∧
      List.Pairwise (fun a b : PJob =>
        Frac.ble (b.score.getD default) (a.score.getD default) = true)
        (searchSimilar env st query k pred) := by
  simp only [searchSimilar]
  by_cases hempty : st.jobs.isEmpty = true
  · rw [if_pos hempty]
    exact ⟨by simp, List.Pairwise.nil⟩
  · rw [if_neg hempty]
    cases henc : env.embed query with
    | none => exact ⟨fallback_isSome env st query k pred,
        fallback_pairwise env st query k pred⟩
    | some qv =>
      dsimp only
      have hqv : WfVec qv := hwf query qv henc
      have hdens : ∀ c ∈ st.index.enum.map fun p => (l2sq qv p.2, p.1),
          0 < (Prod.fst c).den := by
        intro c hc
        simp only [List.mem_map] at hc
        obtain ⟨p, hp, hpc⟩ := hc
        have hmem : p.2 ∈ st.index := by
          have hg := List.mem_enum_iff_getElem?.mp hp
          exact List.getElem?_mem hg
        rw [← hpc]
        exact l2sq_den_pos hqv (hidx _ hmem)
      have hcands : ∀ topk, List.Pairwise
          (fun a b : Frac × Nat => Frac.blt b.1 a.1 = false)
          (faissSearch st.index qv topk) := by
        intro topk
        exact List.Pairwise.sublist (List.take_sublist _ _)
          (pairwise_sortAscBy Prod.fst _ hdens)
      have hscan : ∀ topk, (∀ pj ∈ (scanLoop k st.jobs st.map pred
            (faissSearch st.index qv topk) []), pj.score.isSome) ∧
          List.Pairwise (fun a b : PJob =>
            Frac.ble (b.score.getD default) (a.score.getD default) = true)
            (scanLoop k st.jobs st.map pred (faissSearch st.index qv topk) []) := by
        intro topk
        rw [scanLoop_eq k st.jobs st.map pred _ [] (by
          simp only [List.length_nil]
          exact lt_of_lt_of_le Nat.zero_lt_one (le_max_right k 1))]
        rw [List.nil_append]
        constructor
        · intro pj hpj
          have := List.mem_of_mem_take hpj
          simp only [List.mem_filterMap] at this
          obtain ⟨c, _, hacc⟩ := this
          rw [scanAccept_score hacc]
          rfl
        · refine List.Pairwise.sublist (List.take_sublist _ _) ?_
          rw [List.pairwise_filterMap]
          refine (hcands topk).imp ?_
          intro a b hab x hx y hy
          rw [Option.mem_def] at hx hy
          rw [scanAccept_score hx, scanAccept_score hy]
          simp only [Option.getD_some]
          exact score_antitone hab
      split
      · exact ⟨fallback_isSome env st query k pred,
          fallback_pairwise env st query k pred⟩
      · cases pred with
        | none => exact hscan k
        | some f => exact hscan (min (k * 5) st.jobs.length)

/-- A concrete instance: well-formed encoder, ingested store. -/
theorem C9_witness :
    (∀ pj ∈ searchSimilar envC6 stC6 (str "q") 3 none, pj.score.isSome) ∧
      List.Pairwise (fun a b : PJob =>
        Frac.ble (b.score.getD default) (a.score.getD default) = true)
        (searchSimilar envC6 stC6 (str "q") 3 none) :=
  C9_similarity_ordering envC6 stC6 (str "q") 3 none
    (fun s v hv => by
      simp only [envC6] at hv
      injection hv with hv
      rw [← hv]
      intro x hx
      simp only [List.mem_singleton] at hx
      rw [hx]
      norm_num [Frac.ofInt])
    (by
      simp only [WfVec]
      decide)

/-! ## Claim C6 -/

/-- C6 (counterexample): a store of 11 records with a predicate matched
by exactly 2 of them; for `k = 2` the scan requests only
`min(5·k, n) = 10` distance-ranked candidates, finds one match among
them and returns it, stopping with 1 < k matches while the matching
record ranked 11th was never examined. -/
theorem C6_counterexample :
    (searchSimilar envC6 stC6 (str "q") 2 (some predLocM)).length = 1 ∧
      (stC6.jobs.filter predLocM).length = 2 := by
  decide

/-- C6 (amended): with a predicate supplied, the scan examines only the
top `min(5k, n)` distance-ranked candidates — not the entire pool; if at
least one of them passes the predicate, the result is exactly the first
`k` accepted candidates of that window (the keyword fallback runs only
when the window yields zero matches). -/
theorem C6_scan_window (env : Env) (st : Store) (query : Str) (k : Nat)
    (f : Job → Bool) (qv : List Frac) (hq : env.embed query = some qv)
    (hne : st.jobs ≠ [])
    (hm : (faissSearch st.index qv (min (k * 5) st.jobs.length)).filterMap
      (scanAccept st.jobs st.map (some f)) ≠ []) :
    searchSimilar env st query k (some f) =
      ((faissSearch st.index qv (min (k * 5) st.jobs.length)).filterMap
        (scanAccept st.jobs st.map (some f))).take (max k 1) := by
  have hne' : ¬st.jobs.isEmpty = true := fun hh => hne (List.isEmpty_iff.mp hh)
  simp only [searchSimilar]
  rw [if_neg hne', hq]
  dsimp only
  rw [scanLoop_eq k st.jobs st.map (some f) _ [] (by
    simp only [List.length_nil]
    exact lt_of_lt_of_le Nat.zero_lt_one (le_max_right k 1))]
  simp only [List.nil_append, List.length_nil, Nat.sub_zero]
  rw [if_neg ?_]
  intro hcon
  rw [List.isEmpty_iff, List.take_eq_nil_iff] at hcon
  rcases hcon with hcon | hcon
  · omega
  · exact hm hcon

theorem C6_witness :
    searchSimilar envC6 stC6 (str "q") 2 (some predLocM) =
      ((faissSearch stC6.index [Frac.ofInt 1] (min (2 * 5) stC6.jobs.length)).filterMap
        (scanAccept stC6.jobs stC6.map (some predLocM))).take (max 2 1) :=
  C6_scan_window envC6 stC6 (str "q") 2 predLocM [Frac.ofInt 1] (by decide)
    (by decide) (by decide)

/-! ## Claim C10 -/

/-- C10: with a predicate that no stored record satisfies and a query
matching no keywords, the random last-resort sample is drawn from the
full store without applying the predicate: the result has size
`min(k, n)` (not `k`) and every returned record violates the supplied
predicate. -/
theorem C10_random_bypasses_predicate (smp : List Job → Nat → List Job)
    (hlen : ∀ l n, (smp l n).length = min n l.length)
    (hmem : ∀ l n x, x ∈ smp l n → x ∈ l) :
    (searchSimilar (envC10 smp) (stC10 smp) (str "q") 5 (some predLocZ)).length =
        min 5 (stC10 smp).jobs.length ∧
      min 5 (stC10 smp).jobs.length < 5 ∧
      ∀ pj ∈ searchSimilar (envC10 smp) (stC10 smp) (str "q") 5 (some predLocZ),
        predLocZ pj.job = false := by
  have hred : searchSimilar (envC10 smp) (stC10 smp) (str "q") 5 (some predLocZ) =
      ((smp jobsC10 2).map fun j =>
        ({ job := j, score := some ⟨1, 10⟩ } : PJob)).take 5 := rfl
  have hjobs : (stC10 smp).jobs = jobsC10 := rfl
  refine ⟨?_, ?_, ?_⟩
  · rw [hred, hjobs, List.length_take, List.length_map, hlen]
    rfl
  · rw [hjobs]
    decide
  · intro pj hpj
    rw [hred] at hpj
    have hpj2 := List.mem_of_mem_take hpj
    simp only [List.mem_map] at hpj2
    obtain ⟨j, hj, hjeq⟩ := hpj2
    have hj2 := hmem jobsC10 2 j hj
    rw [← hjeq]
    simp only [jobsC10, List.mem_cons, List.mem_singleton] at hj2
    rcases hj2 with rfl | hj2
    · rfl
    · rcases hj2 with rfl | hfalse
      · rfl
      · exact absurd hfalse (List.not_mem_nil j)

theorem C10_witness :
    (searchSimilar (envC10 fun l n => l.take n) (stC10 fun l n => l.take n)
        (str "q") 5 (some predLocZ)).length =
        min 5 (stC10 fun l n => l.take n).jobs.length ∧
      min 5 (stC10 fun l n => l.take n).jobs.length < 5 ∧
      ∀ pj ∈ searchSimilar (envC10 fun l n => l.take n)
          (stC10 fun l n => l.take n) (str "q") 5 (some predLocZ),
        predLocZ pj.job = false :=
  C10_random_bypasses_predicate (fun l n => l.take n)
    (fun l n => by simp) (fun l n x hx => List.mem_of_mem_take hx)

/-! ## Claim C4: pipeline-stage lemmas -/

theorem is_duplicate_job_congr {a b a' b' : Job}
    (h1 : a'.title = a.title) (h2 : a'.company = a.company)
    (h3 : a'.location = a.location) (h4 : a'.redirect_url = a.redirect_url)
    (k1 : b'.title = b.title) (k2 : b'.company = b.company)
    (k3 : b'.location = b.location) (k4 : b'.redirect_url = b.redirect_url) :
    is_duplicate_job a' b' = is_duplicate_job a b := by
  unfold is_duplicate_job
  rw [h1, h2, h3, h4, k1, k2, k3, k4]

theorem sameKey_dup_eq {a b a' b' : PJob} (ha : SameKey a a') (hb : SameKey b b') :
    is_duplicate_job a'.job b'.job = is_duplicate_job a.job b.job :=
  is_duplicate_job_congr ha.1 ha.2.1 ha.2.2.1 ha.2.2.2 hb.1 hb.2.1 hb.2.2.1 hb.2.2.2

theorem enrich_sameKey (a : PJob) : SameKey a (enrichJobType a) := by
  unfold enrichJobType
  split
  · exact ⟨rfl, rfl, rfl, rfl⟩
  · exact ⟨rfl, rfl, rfl, rfl⟩

theorem enrich_forall₂ (l : List PJob) : List.Forall₂ SameKey l (l.map enrichJobType) := by
  induction l with
  | nil => exact List.Forall₂.nil
  | cons p rest ih => exact List.Forall₂.cons (enrich_sameKey p) ih

theorem assignSynth_forall₂ (env : Env) :
    ∀ (l : List PJob) (i : Nat), List.Forall₂ SameKey l (assignSynthDates env l i)
  | [], _ => List.Forall₂.nil
  | p :: rest, i => by
    simp only [assignSynthDates]
    split
    · exact List.Forall₂.cons ⟨rfl, rfl, rfl, rfl⟩ (assignSynth_forall₂ env rest i)
    · exact List.Forall₂.cons ⟨rfl, rfl, rfl, rfl⟩ (assignSynth_forall₂ env rest (i + 1))

theorem parsePass_forall₂ (env : Env) :
    ∀ (l : List PJob) (i : Nat), List.Forall₂ SameKey l (parseDatesPass env l i)
  | [], _ => List.Forall₂.nil
  | p :: rest, i => by
    simp only [parseDatesPass]
    refine List.Forall₂.cons ?_ (parsePass_forall₂ env rest (i + 1))
    split
    · exact ⟨rfl, rfl, rfl, rfl⟩
    · split
      · split
        · exact ⟨rfl, rfl, rfl, rfl⟩
        · exact ⟨rfl, rfl, rfl, rfl⟩
      · exact ⟨rfl, rfl, rfl, rfl⟩

theorem goodList_forall₂ {L L' : List PJob} (hf : List.Forall₂ SameKey L L')
    (hg : GoodList L) : GoodList L' := by
  obtain ⟨hlen, hget⟩ := List.forall₂_iff_get.mp hf
  constructor
  · intro pj hpj
    obtain ⟨i, hi, hieq⟩ := List.getElem_of_mem hpj
    have hi' : i < L.length := by omega
    have hs := hget i hi' hi
    simp only [List.get_eq_getElem] at hs
    rw [← hieq]
    rw [sameKey_dup_eq hs hs]
    exact hg.1 _ (List.getElem_mem _)
  · rw [List.pairwise_iff_getElem]
    intro i j hi hj hij
    have hi' : i < L.length := by omega
    have hj' : j < L.length := by omega
    have hsi := hget i hi' hi
    have hsj := hget j hj' hj
    simp only [List.get_eq_getElem] at hsi hsj
    have hp := List.pairwise_iff_getElem.mp hg.2 i j hi' hj' hij
    exact ⟨by rw [sameKey_dup_eq hsi hsj]; exact hp.1,
      by rw [sameKey_dup_eq hsj hsi]; exact hp.2⟩

theorem goodList_perm {L L' : List PJob} (hperm : List.Perm L L') (hg : GoodList L) :
    GoodList L' := by
  constructor
  · intro pj hpj
    exact hg.1 pj (hperm.mem_iff.mpr hpj)
  · refine (hperm.pairwise_iff ?_).mp hg.2
    intro x y hxy
    exact ⟨hxy.2, hxy.1⟩

theorem assignSynth_length (env : Env) :
    ∀ (l : List PJob) (i : Nat), (assignSynthDates env l i).length = l.length :=
  fun l i => ((assignSynth_forall₂ env l i).length_eq).symm

theorem parsePass_length (env : Env) :
    ∀ (l : List PJob) (i : Nat), (parseDatesPass env l i).length = l.length :=
  fun l i => ((parsePass_forall₂ env l i).length_eq).symm

theorem filterMap_eq_map_of_forall {α β : Type} (f : α → Option β) (g : α → β) :
    ∀ l : List α, (∀ x ∈ l, f x = some (g x)) → l.filterMap f = l.map g
  | [], _ => rfl
  | x :: rest, h => by
    rw [List.filterMap_cons_some (h x (by simp)), List.map_cons]
    rw [filterMap_eq_map_of_forall f g rest fun y hy => h y (by simp [hy])]

theorem scanAccept_nofilter {jobs : List Job} {m : List (Nat × Nat)} {c : Frac × Nat}
    (hc : c.2 < jobs.length) (hmap : List.lookup c.2 m = some c.2) :
    scanAccept jobs m none c =
      some { job := jobs.getD c.2 {},
             score := some (Frac.div (Frac.ofInt 1) (Frac.add (Frac.ofInt 1) c.1)) } := by
  simp only [scanAccept]
  rw [if_neg (by omega), hmap]
  dsimp only
  rw [if_neg (by omega)]
  rfl

/-- With no predicate and a well-formed position map, the vector path of
`search_similar_jobs` returns exactly the `min(k, n)` nearest records,
scored `1/(1+distance)`. -/
theorem searchSimilar_nofilter (env : Env) (st : Store) (query : Str) (k : Nat)
    (qv : List Frac) (hq : env.embed query = some qv) (hne : st.jobs ≠ [])
    (hmap : ∀ i < st.jobs.length, List.lookup i st.map = some i)
    (hlen : st.index.length = st.jobs.length) (hk : 1 ≤ k) :
    searchSimilar env st query k none =
      (faissSearch st.index qv k).map fun c =>
        { job := st.jobs.getD c.2 {},
          score := some (Frac.div (Frac.ofInt 1) (Frac.add (Frac.ofInt 1) c.1)) } := by
  have hne' : ¬st.jobs.isEmpty = true := fun hh => hne (List.isEmpty_iff.mp hh)
  have hfm : (faissSearch st.index qv k).filterMap (scanAccept st.jobs st.map none) =
      (faissSearch st.index qv k).map fun c =>
        ({ job := st.jobs.getD c.2 {},
           score := some (Frac.div (Frac.ofInt 1) (Frac.add (Frac.ofInt 1) c.1)) } : PJob) := by
    apply filterMap_eq_map_of_forall
    intro c hc
    have hlt : c.2 < st.jobs.length := by
      have := (faissSearch_mem st.index qv k c hc).1
      omega
    exact scanAccept_nofilter hlt (hmap c.2 hlt)
  have hflen : (faissSearch st.index qv k).length = min k st.jobs.length := by
    rw [faissSearch_length, hlen]
  simp only [searchSimilar]
  rw [if_neg hne', hq]
  dsimp only
  rw [scanLoop_eq k st.jobs st.map none _ [] (by
    simp only [List.length_nil]
    exact lt_of_lt_of_le Nat.zero_lt_one (le_max_right k 1))]
  simp only [List.nil_append, List.length_nil, Nat.sub_zero]
  rw [hfm]
  rw [List.take_of_length_le (by
    rw [List.length_map, hflen, max_eq_left hk]
    exact min_le_left _ _)]
  rw [if_neg ?_]
  intro hcon
  rw [List.isEmpty_iff] at hcon
  have := congrArg List.length hcon
  rw [List.length_map, hflen, List.length_nil] at this
  have hn : st.jobs.length ≠ 0 := fun hz => hne (List.length_eq_zero.mp hz)
  omega

/-! ## Claim C4: the pipeline count guarantee -/

/-- An environment whose encoder embeds every text to the same vector. -/
def envC4w : Env :=
  { embed := fun _ => some [Frac.ofInt 1],
    sample := fun l n => l.take n, genSample := fun _ => [],
    now := 0, fmtDate := fun _ => [], parseDate := fun _ => none,
    jitter3 := fun _ => 0, rand30 := fun _ => 0, rand10 := fun _ => 0 }

/-- A store of two records that are not duplicates of each other. -/
def stC4w : Store :=
  { jobs := [{ title := some (str "aaa"), company := some (str "bbb") },
             { title := some (str "xyz"), company := some (str "qrs") }],
    index := [[Frac.ofInt 1], [Frac.ofInt 1]],
    map := [(0, 0), (1, 1)] }

theorem pairwise_getElem_ne {jobs : List Job}
    (hpair : List.Pairwise
      (fun a b => is_duplicate_job a b = false ∧ is_duplicate_job b a = false) jobs)
    {i j : Nat} (hi : i < jobs.length) (hj : j < jobs.length) (hne : i ≠ j) :
    is_duplicate_job jobs[i] jobs[j] = false ∧ is_duplicate_job jobs[j] jobs[i] = false := by
  rcases Nat.lt_or_ge i j with h | h
  · exact List.pairwise_iff_getElem.mp hpair i j hi hj h
  · have h' : j < i := by omega
    have hp := List.pairwise_iff_getElem.mp hpair j i hj hi h'
    exact ⟨hp.2, hp.1⟩

theorem goodList_get_pairs {L : List PJob} (hg : GoodList L) (i j : Nat)
    (hi : i < L.length) (hj : j < L.length) (hij : i ≠ j) :
    is_duplicate_job (L.get ⟨i, hi⟩).job (L.get ⟨j, hj⟩).job = false := by
  simp only [List.get_eq_getElem]
  rcases Nat.lt_or_ge i j with h | h
  · exact (List.pairwise_iff_getElem.mp hg.2 i j hi hj h).1
  · exact (List.pairwise_iff_getElem.mp hg.2 j i hj hi (by omega)).2

theorem goodList_nodup {L : List PJob} (hg : GoodList L) : L.Nodup := by
  refine List.Pairwise.imp_of_mem ?_ hg.2
  intro a b _ hb hab hEq
  rw [hEq] at hab
  exact absurd (hab.1 ▸ hg.1 b hb) (by decide)

/-- C4 (counterexample): `stC4` holds seven copies of one record —
more than the trivial-filter request's `limit = 2` — yet the pipeline
returns a single result: dedup collapses the pool to one record, the
refetch appends only non-duplicates and finds none, and the sample
substitution fires only on an empty result. -/
theorem C4_counterexample :
    reqC4.limit ≤ stC4.jobs.length ∧ reqC4.limit = 2 ∧
      reqC4.location = [] ∧ reqC4.jobType = [] ∧ reqC4.minSalary = none ∧
      reqC4.remote = false ∧ reqC4.moroccoOnly = false ∧
      reqC4.engineeringField = [] ∧ reqC4.recentHours = none ∧
      (search_jobs envC4 stC4 reqC4).length = 1 := by decide

/-- C4 (amended): on a store of pairwise non-duplicate records (each a
duplicate of itself), with an identity position map, an aligned index
and a successfully embedded query, a request with all-default (trivial)
filters returns exactly `limit` results whenever the store holds at
least `limit ≥ 1` records. -/
theorem C4_exact_limit (env : Env) (st : Store) (query : Str) (limit : Nat)
    (qv : List Frac) (hq : env.embed query = some qv)
    (hlim : 1 ≤ limit) (hn : limit ≤ st.jobs.length)
    (hmap : ∀ i < st.jobs.length, List.lookup i st.map = some i)
    (hlen : st.index.length = st.jobs.length)
    (hself : ∀ j ∈ st.jobs, is_duplicate_job j j = true)
    (hpair : List.Pairwise
      (fun a b => is_duplicate_job a b = false ∧ is_duplicate_job b a = false) st.jobs) :
    (search_jobs env st { query := query, limit := limit }).length = limit := by
  have hne : st.jobs ≠ [] := by
    intro hc
    rw [hc] at hn
    simp only [List.length_nil] at hn
    omega
  have hS := searchSimilar_nofilter env st query (limit * 5) qv hq hne hmap hlen (by omega)
  have hFlen : (faissSearch st.index qv (limit * 5)).length =
      min (limit * 5) st.jobs.length := by
    rw [faissSearch_length, hlen]
  have hSlen : (searchSimilar env st query (limit * 5) none).length =
      min (limit * 5) st.jobs.length := by
    rw [hS, List.length_map, hFlen]
  have hSlim : limit ≤ (searchSimilar env st query (limit * 5) none).length := by
    rw [hSlen]
    omega
  have hSne : ¬(searchSimilar env st query (limit * 5) none).isEmpty = true := by
    intro h
    rw [List.isEmpty_iff.mp h] at hSlim
    simp only [List.length_nil] at hSlim
    omega
  have hgood0 : GoodList (searchSimilar env st query (limit * 5) none) := by
    rw [hS]
    constructor
    · intro pj hpj
      rw [List.mem_map] at hpj
      obtain ⟨c, hc, rfl⟩ := hpj
      have hlt : c.2 < st.jobs.length := by
        have := (faissSearch_mem st.index qv (limit * 5) c hc).1
        omega
      show is_duplicate_job (st.jobs.getD c.2 {}) (st.jobs.getD c.2 {}) = true
      rw [List.getD_eq_getElem st.jobs {} hlt]
      exact hself _ (List.getElem_mem hlt)
    · rw [List.pairwise_map]
      have hnd : (faissSearch st.index qv (limit * 5)).Pairwise (fun c d => c.2 ≠ d.2) :=
        List.pairwise_map.mp (faissSearch_nodup st.index qv (limit * 5))
      refine List.Pairwise.imp_of_mem ?_ hnd
      intro c d hcF hdF hne2
      have hc2 : c.2 < st.jobs.length := by
        have := (faissSearch_mem st.index qv (limit * 5) c hcF).1
        omega
      have hd2 : d.2 < st.jobs.length := by
        have := (faissSearch_mem st.index qv (limit * 5) d hdF).1
        omega
      dsimp only
      rw [List.getD_eq_getElem st.jobs {} hc2, List.getD_eq_getElem st.jobs {} hd2]
      exact pairwise_getElem_ne hpair hc2 hd2 hne2
  have hgood8 : GoodList (sortByDateDesc (parseDatesPass env (assignSynthDates env
      ((searchSimilar env st query (limit * 5) none).map enrichJobType) 0) 0)) := by
    refine goodList_perm (sortDescBy_perm _ _ _).symm ?_
    refine goodList_forall₂ (parsePass_forall₂ env _ 0) ?_
    refine goodList_forall₂ (assignSynth_forall₂ env _ 0) ?_
    exact goodList_forall₂ (enrich_forall₂ _) hgood0
  have hlen8 : (sortByDateDesc (parseDatesPass env (assignSynthDates env
      ((searchSimilar env st query (limit * 5) none).map enrichJobType) 0) 0)).length =
      (searchSimilar env st query (limit * 5) none).length := by
    simp only [sortByDateDesc]
    rw [sortDescBy_length, parsePass_length, assignSynth_length, List.length_map]
  have hdd : removeDuplicates (fun a b : PJob => is_duplicate_job a.job b.job)
      (sortByDateDesc (parseDatesPass env (assignSynthDates env
        ((searchSimilar env st query (limit * 5) none).map enrichJobType) 0) 0)) limit =
      sortByDateDesc (parseDatesPass env (assignSynthDates env
        ((searchSimilar env st query (limit * 5) none).map enrichJobType) 0) 0) :=
    removeDuplicates_id _ _ _ (goodList_nodup hgood8) (fun x hx => hgood8.1 x hx)
      (fun i j hi hj hij => goodList_get_pairs hgood8 i j hi hj hij)
  have hlt8 : ¬(sortByDateDesc (parseDatesPass env (assignSynthDates env
      ((searchSimilar env st query (limit * 5) none).map enrichJobType) 0) 0)).length <
      limit := by
    rw [hlen8]
    omega
  have hnz8 : ¬(sortByDateDesc (parseDatesPass env (assignSynthDates env
      ((searchSimilar env st query (limit * 5) none).map enrichJobType) 0) 0)).length = 0 := by
    rw [hlen8]
    omega
  simp only [search_jobs, Bool.false_and, Bool.and_false, Bool.not_true,
    List.isEmpty_nil, Bool.false_eq_true, if_false, reduceIte]
  simp only [if_neg hSne]
  simp only [hdd]
  have hc1 : ¬((decide ((sortByDateDesc (parseDatesPass env (assignSynthDates env
      ((searchSimilar env st query (limit * 5) none).map enrichJobType) 0) 0)).length <
        limit) &&
      decide (limit ≤ (sortByDateDesc (parseDatesPass env (assignSynthDates env
      ((searchSimilar env st query (limit * 5) none).map enrichJobType) 0) 0)).length)) =
        true) := by
    simp only [Bool.and_eq_true, decide_eq_true_eq, not_and]
    intro hc
    exact absurd hc hlt8
  simp only [if_neg hc1]
  rw [if_neg hnz8]
  rw [List.length_map, List.enum_length, List.length_take, hlen8, hSlen]
  omega

/-- A closed instance of the amended pipeline guarantee: on the
two-record pairwise-distinct store, the trivial request with `limit = 2`
returns exactly two results. -/
theorem C4_witness :
    (search_jobs envC4w stC4w { query := str "q", limit := 2 }).length = 2 :=
  C4_exact_limit envC4w stC4w (str "q") 2 [Frac.ofInt 1] (by decide) (by decide)
    (by decide) (by decide) (by decide) (by decide) (by decide)
